import Mathlib

/-!
Verification model of the statement segmentation and aggregation engine of
`beancount_reds_importers` (Guideline PDF importer).

Sources embedded here:
  * `guideline/regex_formatter.py` — the account / year / marker / grammar patterns;
  * `guideline/guidelinereader.py` — `_clean_statement`, `_searchAccounts`,
    `_getOperations`, `read_file` (the tabular projection);
  * `guideline/guideline_importer_pdf.py` — `getOperations`, `extract`,
    `_searchAccounts` (the transaction extraction).

Modelling conventions:
  * Text is `List Char`; a line is a `List Char` without `'\n'`.  Only `'\n'`
    is treated as a line terminator (the statements handled by this importer
    are `'\n'`-separated; `str.splitlines`' exotic terminators are out of scope).
  * Python floats are modelled as exact rationals (`ℚ`).  Arithmetic is done
    through kernel-computable wrappers (`qadd`, …) that are proved equal to the
    field operations of `ℚ`.
  * Python exceptions are modelled with `Except PyErr`; an uncaught exception
    is a `.error` result (no partial output).
  * The line-anchored regular expressions of `regex_formatter.py` (all of the
    form `^ … $`, with `.` never matching a newline) are modelled as per-line
    matching functions; `regex.finditer`/`findall`/`sub` with `MULTILINE` on
    such patterns is exactly one scan over the lines.  Lazy gaps and greedy
    classes follow the backtracking order of the `regex` module; the analysis
    of each pattern is documented at its definition.
  * `GuidelineImporter_PDF.extract` invokes `self._getOperations`; the class
    defines this helper under the name `getOperations` (the underscore-free
    spelling).  We model the evident composition `extract ∘ getOperations`.
  * The downstream beancount record construction and the `petl` table wrapper
    are adaptation shims declared out of scope by the specification; emitted
    transactions and rows are modelled by flat structures holding the fields
    the engine itself computes.
-/

namespace Guideline

/-! ## Kernel-computable rational arithmetic

`Rat`'s `+ - * /` do not reduce in the kernel, so all model arithmetic uses
the following wrappers, each proved equal to the corresponding `ℚ` operation. -/

def qadd (a b : ℚ) : ℚ := mkRat (a.num * b.den + b.num * a.den) (a.den * b.den)

def qsub (a b : ℚ) : ℚ := mkRat (a.num * b.den - b.num * a.den) (a.den * b.den)

def qmul (a b : ℚ) : ℚ := mkRat (a.num * b.num) (a.den * b.den)

def qdiv (a b : ℚ) : ℚ := Rat.divInt (a.num * (b.den : Int)) ((a.den : Int) * b.num)

def qabs (a : ℚ) : ℚ := if 0 ≤ a then a else -a

def qmax (a b : ℚ) : ℚ := if a ≤ b then b else a

/-! ## Python exceptions -/

/-- The Python exceptions the embedded code can raise.  A bare `raise`
statement with no active exception (used both by `_searchAccounts` and by the
reconciliation check in `extract`) raises `RuntimeError`. -/
inductive PyErr where
  | indexError
  | typeError
  | valueError
  | zeroDivisionError
  | runtimeError
  | attributeError
  | nameError
  | stopIteration
  | invalidOperation
  deriving DecidableEq, Repr

instance {ε α : Type} [DecidableEq ε] [DecidableEq α] : DecidableEq (Except ε α) :=
  fun a b =>
    match a, b with
    | .error e, .error e' =>
      if h : e = e' then .isTrue (by rw [h]) else .isFalse (by intro hc; cases hc; exact h rfl)
    | .ok x, .ok y =>
      if h : x = y then .isTrue (by rw [h]) else .isFalse (by intro hc; cases hc; exact h rfl)
    | .error _, .ok _ => .isFalse (by intro hc; cases hc)
    | .ok _, .error _ => .isFalse (by intro hc; cases hc)

/-! ## Lines and offsets -/

/-- Split at every `'\n'`; `"a\nb" ↦ ["a","b"]`, `"a\n" ↦ ["a",""]`. -/
def splitNlAll : List Char → List (List Char)
  | [] => [[]]
  | c :: rest =>
    if c = '\n' then [] :: splitNlAll rest
    else
      match splitNlAll rest with
      | l :: ls => (c :: l) :: ls
      | [] => [[c]]

/-- Python `str.splitlines` (with `'\n'` as the only terminator): a trailing
terminator does not produce a final empty line, and `"" ↦ []`. -/
def pySplitlines (s : List Char) : List (List Char) :=
  if s.isEmpty then []
  else if s.getLast? = some '\n' then (splitNlAll s).dropLast
  else splitNlAll s

/-- `'\n'.join(…)` — also the shape of the text produced by the clean-up
stages, which reassemble the kept lines with `'\n'.join`. -/
def joinLines : List (List Char) → List Char
  | [] => []
  | [l] => l
  | l :: ls => l ++ '\n' :: joinLines ls

/-- The `LineIndex`: `for m in regex.finditer('.*\n', clean_statement):
line.append(m.end())` — the offset one past each `'\n'`.  A final line
without a terminator contributes no entry. -/
def lineEnds : List Char → List Nat
  | [] => []
  | c :: rest =>
    if c = '\n' then 1 :: (lineEnds rest).map (· + 1)
    else (lineEnds rest).map (· + 1)

/-! ## The Text Normalizer (`_clean_statement` and the first clean-up in
`getOperations`) -/

def FLAGSTR : List Char := "FLAG_DELETE_THIS_LINE".toList

/-- `transaction_begin_regex` (a literal, no metacharacters). -/
def MARKER : List Char := "DATE ACTION SOURCE PRE-TAX ROTH EMPLOYER TOTAL".toList

/-- Offset of the first occurrence of `pat` in `s` (leftmost match of a
literal pattern), as used by `regex.split`. -/
def findFirstOcc (pat s : List Char) : Option Nat :=
  (List.range (s.length + 1)).find? (fun i => pat.isPrefixOf (s.drop i))

/-- Whether `pat` occurs in `s` (Python's `pat in s` / a successful
`regex.search` for a literal). -/
def hasOcc (pat s : List Char) : Bool :=
  (List.range (s.length + 1)).any (fun i => pat.isPrefixOf (s.drop i))

/-- `regex.split(pat, s)` for a group-free literal pattern, fuel-indexed so it
reduces in the kernel; `splitOnSub` supplies sufficient fuel. -/
def splitOnSubF (pat : List Char) : Nat → List Char → List (List Char)
  | 0, s => [s]
  | fuel + 1, s =>
    match findFirstOcc pat s, pat with
    | some i, _ :: _ => s.take i :: splitOnSubF pat fuel (s.drop (i + pat.length))
    | _, _ => [s]

def splitOnSub (pat s : List Char) : List (List Char) := splitOnSubF pat s.length s

/-- `\w` (ASCII): letters, digits, underscore. -/
def isWordChar (c : Char) : Bool := c.isAlphanum || c = '_'

/-- `\b` holding just before offset `i` when a word character follows there:
`i` is the line start or the previous character is a non-word character. -/
def boundaryBefore (l : List Char) (i : Nat) : Bool :=
  i = 0 ||
    match (l.drop (i - 1)).head? with
    | some c => !isWordChar c
    | none => true

/-- `\b` holding just after the word ending at offset `i` (exclusive): `i` is
the line end or the character at `i` is a non-word character. -/
def boundaryAfter (l : List Char) (i : Nat) : Bool :=
  match (l.drop i).head? with
  | some c => !isWordChar c
  | none => true

/-- One position of `words_to_remove_regex = ^.*\b(ACTION|guideline.com|Investment Income)\b.*$`:
does one of the three alternatives match at offset `i` with `\b` on both
sides?  The `.` of `'guideline.com'` is an (unescaped) any-character. -/
def bannedAt (l : List Char) (i : Nat) : Bool :=
  (boundaryBefore l i && "ACTION".toList.isPrefixOf (l.drop i) &&
    boundaryAfter l (i + 6)) ||
  (boundaryBefore l i && "guideline".toList.isPrefixOf (l.drop i) &&
    (l.drop (i + 9)).head?.isSome && "com".toList.isPrefixOf (l.drop (i + 10)) &&
    boundaryAfter l (i + 13)) ||
  (boundaryBefore l i && "Investment Income".toList.isPrefixOf (l.drop i) &&
    boundaryAfter l (i + 17))

def hasBannedWord (l : List Char) : Bool :=
  (List.range (l.length + 1)).any (bannedAt l)

/-- `trailing_spaces_and_tabs_regex = [ \t]+$` substituted by `''`. -/
def dropTrailingWs (l : List Char) : List Char :=
  (l.reverse.dropWhile (fun c => c = ' ' || c = '\t')).reverse

/-- The per-line pipeline of `_clean_statement` after the body split: flag
lines of length ≥ 70 (`longer_than_70_regex`), lines containing a banned word,
strip trailing blanks, flag whitespace-only lines (`empty_line_regex`), flag
lines of length ≤ 2 (`smaller_than_2_regex`), then drop every line containing
`FLAG_DELETE_THIS_LINE`.  Substitution of whole whitespace-only line groups
(the `\s*` of `empty_line_regex` can absorb a newline between two empty lines)
only ever merges lines that are dropped either way, so the per-line model
keeps exactly the lines the Python code keeps. -/
def processLine (l : List Char) : Option (List Char) :=
  let l1 := if 70 ≤ l.length then FLAGSTR else l
  let l2 := if hasBannedWord l1 then FLAGSTR else l1
  let l3 := dropTrailingWs l2
  let l4 := if l3.all (fun c => c = ' ' || c = '\t') then FLAGSTR else l3
  let l5 := if l4.length ≤ 2 then FLAGSTR else l4
  if hasOcc FLAGSTR l5 then none else some l5

/-- The line clean-up applied to a whole text (everything `_clean_statement`
does after isolating the body). -/
def cleanupText (s : List Char) : List Char :=
  joinLines ((pySplitlines s).filterMap processLine)

/-- `_clean_statement`: split on the transaction-begin marker, keep
`'\n'.join(parts[1:])`, then run the line clean-up. -/
def cleanStatement (s : List Char) : List Char :=
  cleanupText (joinLines ((splitOnSub MARKER s).drop 1))

/-- `one_character_line_regex = ^( +|.|\n)$`: lines that are entirely spaces
(one or more), exactly one character, or empty.  (As with the empty-line flag,
the `\n` alternative can only merge lines that are dropped either way.) -/
def isOneCharLine (l : List Char) : Bool :=
  l.length ≤ 1 || l.all (fun c => c = ' ')

/-- The first clean-up stage of `getOperations`: flag one-character lines and
keep only the lines not containing the flag. -/
def removeOneCharLines (s : List Char) : List Char :=
  joinLines ((pySplitlines s).filter
    (fun l => !(isOneCharLine l || hasOcc FLAGSTR l)))

/-! ## Account and year search -/

/-- One line fully matching `account_regex = ^(?P<account>[A-Z0-9]+\-[A-Z0-9]+)$`. -/
def lineIsAccount (l : List Char) : Bool :=
  match l.splitOn '-' with
  | [a, b] => !a.isEmpty && !b.isEmpty &&
      a.all (fun c => c.isUpper || c.isDigit) && b.all (fun c => c.isUpper || c.isDigit)
  | _ => false

/-- `_searchAccounts`: `accounts = regex.findall(account_regex, statement, flags=M)`
collects every matching line (occurrences, not distinct values); more than one
triggers a bare `raise` (`RuntimeError`), and `accounts[0]` on an empty list
raises `IndexError`. -/
def searchAccounts (statement : List Char) : Except PyErr (List Char) :=
  let accounts := (pySplitlines statement).filter lineIsAccount
  if 1 < accounts.length then .error .runtimeError
  else
    match accounts with
    | [] => .error .indexError
    | a :: _ => .ok a

/-- Longest leading digit run. -/
def digitRun (cs : List Char) : List Char := cs.takeWhile Char.isDigit

/-- `statement_year_regex = ^Quarterly Statement Q\d (?P<year>\d+)`, searched
without `MULTILINE`, so `^` anchors at the start of the whole text; `.group`
on a failed search raises `AttributeError`. -/
def matchYearStart (s : List Char) : Option (List Char) :=
  if "Quarterly Statement Q".toList.isPrefixOf s then
    match s.drop 21 with
    | d :: ' ' :: rest =>
      if d.isDigit then
        let y := digitRun rest
        if y.isEmpty then none else some y
      else none
    | _ => none
  else none

end Guideline

namespace Guideline

/-! ## The Pattern Matcher

All seven grammars are `^ … $`-anchored `MULTILINE` patterns whose classes
never match `'\n'`, so every match spans exactly one line; they are modelled
as per-line functions returning the named groups. -/

/-- `[\d.,]` — the trailing amount class. -/
def isAmountChar (c : Char) : Bool := c.isDigit || c = '.' || c = ','

/-- `(?:.*?)\$(?P<amount>[\d.,]+)$`: the lazy gap selects the first `'$'`
whose entire (non-empty) suffix up to the line end lies in `[\d.,]`. -/
def amountSplit : List Char → Option (List Char)
  | [] => none
  | c :: rest =>
    if c = '$' && !rest.isEmpty && rest.all isAmountChar then some rest
    else amountSplit rest

/-- A `dd/dd` header line: `^(?P<date>\d\d\/\d\d)<kw>(?:.*?)\$(?P<amount>[\d.,]+)$`
where `<kw>` is `" Buy Payroll"`, `" Sell Account"`, `" Exchange Rebalance"`
or `" Reinvest Dividend"`.  Returns `(date, amount)` group strings. -/
def matchAggrLine (kw l : List Char) : Option (List Char × List Char) :=
  match l with
  | d1 :: d2 :: '/' :: d3 :: d4 :: rest =>
    if d1.isDigit && d2.isDigit && d3.isDigit && d4.isDigit && kw.isPrefixOf rest then
      (amountSplit (rest.drop kw.length)).map (fun amt => ([d1, d2, '/', d3, d4], amt))
    else none
  | _ => none

/-- `\s` without `'\n'` (which cannot occur inside a line). -/
def isPySpace (c : Char) : Bool :=
  c = ' ' || c = '\t' || c = '\r' || c = '\x0b' || c = '\x0c'

/-- `(?P<qty>\d+.\d+)(?:.*?)\$(?P<amount>[\d.,]+)$` — note the *unescaped*
dot, matching any character.  Backtracking order of `regex`: the first `\d+`
takes the maximal digit run `k`; the following character is then necessarily
a non-digit, and the second `\d+` takes the next maximal digit run; if that
configuration fails, shrinking either `\d+` only moves digit characters into
the lazy gap (never exposing a new `'$'`), and the first viable alternative
is the split at `k-2`, which makes the whole run the qty (needs `k ≥ 3`). -/
def matchQtyAmount (ticker r1 : List Char) :
    Option (List Char × List Char × List Char) :=
  let run1 := digitRun r1
  let k := run1.length
  if k = 0 then none
  else
    let tryTop :=
      match r1.drop k with
      | c :: r2 =>
        let run2 := digitRun r2
        if run2.isEmpty then none
        else
          (amountSplit (r2.drop run2.length)).map
            (fun amt => (ticker, run1 ++ c :: run2, amt))
      | [] => none
    match tryTop with
    | some res => some res
    | none =>
      if 3 ≤ k then
        (amountSplit (r1.drop k)).map (fun amt => (ticker, run1, amt))
      else none

/-- A posting line: `^<lead>(?P<ticker>[A-Z]+)\s(?P<qty>\d+.\d+)(?:.*?)\$(?P<amount>[\d.,]+)$`
with `<lead>` one of `"Buy "`, `"Sell "`, `"Reinvest "`.  `[A-Z]+` is greedy
and a shorter ticker never helps (the next character would still be a
letter), so the ticker is the maximal run followed by one `\s`. -/
def matchPostLine (lead l : List Char) :
    Option (List Char × List Char × List Char) :=
  if lead.isPrefixOf l then
    let r0 := l.drop lead.length
    let ticker := r0.takeWhile Char.isUpper
    if ticker.isEmpty then none
    else
      match r0.drop ticker.length with
      | c :: r1 => if isPySpace c then matchQtyAmount ticker r1 else none
      | [] => none
  else none

/-! ## Group-value conversion (`replace(',','')` + `float` where parseable) -/

def natOfDigits (ds : List Char) : Nat :=
  ds.foldl (fun n c => 10 * n + (c.toNat - 48)) 0

/-- A digit group of Python's `float` grammar: non-empty, underscores allowed
only singly and between digits.  Returns the digits with underscores removed. -/
def parseUnd (cs : List Char) : Option (List Char) :=
  if cs.isEmpty then none
  else if !cs.all (fun c => c.isDigit || c = '_') then none
  else if (cs.head?.elim false (· = '_')) || (cs.getLast?.elim false (· = '_')) then none
  else if (cs.zip cs.tail).any (fun p => p.1 = '_' && p.2 = '_') then none
  else some (cs.filter (fun c => c ≠ '_'))

/-- `float(s)` on the strings this pipeline can produce, as an exact rational:
`[+-]? (digits [. digits?] | . digits) ([eE] [+-]? digits)?` with underscore
groups.  (`inf`/`nan` literals are not modelled; no grammar of this importer
produces them except a hypothetical ticker named `INF`/`NAN`.) -/
def parsePyFloat (cs : List Char) : Option ℚ :=
  let (sgn, cs1) : Int × List Char :=
    match cs with
    | '+' :: r => (1, r)
    | '-' :: r => (-1, r)
    | r => (1, r)
  let (mant, exOpt) : List Char × Option (List Char) :=
    match cs1.findIdx? (fun c => c = 'e' || c = 'E') with
    | some i => (cs1.take i, some (cs1.drop (i + 1)))
    | none => (cs1, none)
  let intFrac : Option (Nat × Nat × Nat) :=   -- (int value, frac value, frac digits)
    match mant.splitOn '.' with
    | [ip] => (parseUnd ip).map (fun ds => (natOfDigits ds, 0, 0))
    | [ip, fp] =>
      if ip.isEmpty then
        (parseUnd fp).map (fun ds => (0, natOfDigits ds, ds.length))
      else if fp.isEmpty then
        (parseUnd ip).map (fun ds => (natOfDigits ds, 0, 0))
      else
        match parseUnd ip, parseUnd fp with
        | some ids, some fds => some (natOfDigits ids, natOfDigits fds, fds.length)
        | _, _ => none
    | _ => none
  match intFrac with
  | none => none
  | some (iv, fv, fl) =>
    let base : ℚ := mkRat (sgn * (iv * 10 ^ fl + fv)) (10 ^ fl)
    match exOpt with
    | none => some base
    | some ex =>
      let (esgn, eds) : Bool × List Char :=
        match ex with
        | '+' :: r => (true, r)
        | '-' :: r => (false, r)
        | r => (true, r)
      match parseUnd eds with
      | none => none
      | some ds =>
        let e := natOfDigits ds
        some (if esgn then qmul base (mkRat (10 ^ e) 1) else qmul base (mkRat 1 (10 ^ e)))

/-- A converted group value: comma-stripped, numeric if `float` accepts it. -/
inductive Value where
  | num (q : ℚ)
  | str (s : List Char)
  deriving DecidableEq, Repr

def convertV (s : List Char) : Value :=
  let s1 := s.filter (fun c => c ≠ ',')
  match parsePyFloat s1 with
  | some q => .num q
  | none => .str s1

/-! ## Matched operations -/

inductive AggrKind where
  | payroll | fee | exchange | dividend
  deriving DecidableEq, Repr, BEq

inductive PostKind where
  | buy | sell | reinvest
  deriving DecidableEq, Repr, BEq

structure AggrOp where
  line : Nat
  kind : AggrKind
  date : Value
  amount : Value
  deriving DecidableEq, Repr

structure PostOp where
  line : Nat
  kind : PostKind
  ticker : Value
  qty : Value
  amount : Value
  deriving DecidableEq, Repr

/-- `next(i for i in range(len(line)) if line[i] > start)`: the index of the
first `LineIndex` entry strictly greater than the offset; an exhausted
generator raises `StopIteration`. -/
def resolveLineIdx (idx : List Nat) (off : Nat) : Except PyErr Nat :=
  match idx.findIdx? (fun e => off < e) with
  | some i => .ok i
  | none => .error .stopIteration

/-- Python's stable `sorted(..., key=lambda x: x[0])` as an insertion sort:
an element is inserted after all earlier elements with keys `≤` its own. -/
def insByLine (x : Nat × α) : List (Nat × α) → List (Nat × α)
  | [] => [x]
  | y :: ys => if y.1 ≤ x.1 then y :: insByLine x ys else x :: y :: ys

def sortByLine (l : List (Nat × α)) : List (Nat × α) :=
  l.foldl (fun acc x => insByLine x acc) []

/-- Scan the cleaned lines for one aggregate grammar, resolving each match's
group-1 start offset (the line start) against the `LineIndex`. -/
def scanAggrF (kw : List Char) (idx : List Nat) :
    Nat → List (List Char) → Except PyErr (List (Nat × List Char × List Char))
  | _, [] => .ok []
  | off, l :: rest =>
    match matchAggrLine kw l with
    | none => scanAggrF kw idx (off + l.length + 1) rest
    | some (d, a) =>
      match resolveLineIdx idx off with
      | .error e => .error e
      | .ok li =>
        match scanAggrF kw idx (off + l.length + 1) rest with
        | .error e => .error e
        | .ok more => .ok ((li, d, a) :: more)

/-- Scan the cleaned lines for one posting grammar; group 1 (the ticker)
starts `lead.length` characters into the line. -/
def scanPostF (lead : List Char) (idx : List Nat) :
    Nat → List (List Char) → Except PyErr (List (Nat × List Char × List Char × List Char))
  | _, [] => .ok []
  | off, l :: rest =>
    match matchPostLine lead l with
    | none => scanPostF lead idx (off + l.length + 1) rest
    | some (t, q, a) =>
      match resolveLineIdx idx (off + lead.length) with
      | .error e => .error e
      | .ok li =>
        match scanPostF lead idx (off + l.length + 1) rest with
        | .error e => .error e
        | .ok more => .ok ((li, t, q, a) :: more)

/-- `getOperations` (= `_getOperations` of the reader): one-character-line
removal, year search (`AttributeError` when absent from the text start),
account search, the `account in account_number` guard (whose untaken branch
returns names that were never bound — `NameError`), body clean-up, `LineIndex`
construction, the seven grammar scans, stable sorting by line, and group
conversion. -/
def getOperations (accountNumber parsedStatement : List Char) :
    Except PyErr (List AggrOp × List PostOp) :=
  let statement := removeOneCharLines parsedStatement
  match matchYearStart statement with
  | none => .error .attributeError
  | some _year =>
    match searchAccounts statement with
    | .error e => .error e
    | .ok account =>
      if hasOcc account accountNumber then
        let clean := cleanStatement statement
        let idx := lineEnds clean
        let ls := pySplitlines clean
        match scanAggrF " Buy Payroll".toList idx 0 ls,
            scanAggrF " Sell Account".toList idx 0 ls,
            scanAggrF " Exchange Rebalance".toList idx 0 ls,
            scanAggrF " Reinvest Dividend".toList idx 0 ls with
        | .ok pay, .ok fee, .ok exch, .ok divi =>
          let aggr :=
            sortByLine (pay.map (fun r => (r.1, AggrKind.payroll, r.2)) ++
              fee.map (fun r => (r.1, AggrKind.fee, r.2)) ++
              exch.map (fun r => (r.1, AggrKind.exchange, r.2)) ++
              divi.map (fun r => (r.1, AggrKind.dividend, r.2)))
          let aggrOps := aggr.map
            (fun r => AggrOp.mk r.1 r.2.1 (convertV r.2.2.1) (convertV r.2.2.2))
          match scanPostF "Buy ".toList idx 0 ls,
              scanPostF "Sell ".toList idx 0 ls,
              scanPostF "Reinvest ".toList idx 0 ls with
          | .ok buy, .ok sell, .ok reinv =>
            let posts :=
              sortByLine (buy.map (fun r => (r.1, PostKind.buy, r.2)) ++
                sell.map (fun r => (r.1, PostKind.sell, r.2)) ++
                reinv.map (fun r => (r.1, PostKind.reinvest, r.2)))
            let postOps := posts.map
              (fun r => PostOp.mk r.1 r.2.1 (convertV r.2.2.1)
                (convertV r.2.2.2.1) (convertV r.2.2.2.2))
            .ok (aggrOps, postOps)
          | .error e, _, _ => .error e
          | _, .error e, _ => .error e
          | _, _, .error e => .error e
        | .error e, _, _, _ => .error e
        | _, .error e, _, _ => .error e
        | _, _, .error e, _ => .error e
        | _, _, _, .error e => .error e
      else .error .nameError

end Guideline

namespace Guideline

/-! ## The Aggregator / Reconciler (`extract` of `guideline_importer_pdf.py`) -/

/-- `running_amount += amount` with a string operand is a `TypeError`; so is
`math.isclose` against a string total. -/
def asNumV : Value → Except PyErr ℚ
  | .num q => .ok q
  | .str _ => .error .typeError

/-- `-op[2]['amount']` (the FEE branch): unary minus on a string is a
`TypeError`. -/
def pyNegV : Value → Except PyErr ℚ
  | .num q => .ok (-q)
  | .str _ => .error .typeError

/-- `Decimal(x)`: a float converts exactly; the strings reaching this point
were rejected by `float`, and `Decimal`'s grammar (no underscores) accepts no
string that `float` rejects, so they raise `InvalidOperation`. -/
def pyDecimalV : Value → Except PyErr ℚ
  | .num q => .ok q
  | .str _ => .error .invalidOperation

structure PyDate where
  year : Nat
  month : Nat
  day : Nat
  deriving DecidableEq, Repr

/-- 2022 is not a leap year. -/
def daysInMonth2022 : Nat → Nat
  | 1 => 31 | 2 => 28 | 3 => 31 | 4 => 30 | 5 => 31 | 6 => 30
  | 7 => 31 | 8 => 31 | 9 => 30 | 10 => 31 | 11 => 30 | 12 => 31
  | _ => 0

def parseMDNum (cs : List Char) : Option (Nat × Nat) :=
  match cs.splitOn '/' with
  | [m, d] =>
    if !m.isEmpty && m.length ≤ 2 && m.all Char.isDigit &&
        !d.isEmpty && d.length ≤ 2 && d.all Char.isDigit then
      some (natOfDigits m, natOfDigits d)
    else none
  | _ => none

/-- `datetime.strptime(op[2]['date'] + '/2022', '%m/%d/%Y').date()`: the year
is the **constant** `2022`; concatenating onto a float is a `TypeError`, and
an out-of-range month/day is a `ValueError`. -/
def strptimeMD2022 : Value → Except PyErr PyDate
  | .num _ => .error .typeError
  | .str d =>
    match parseMDNum d with
    | some (m, dd) =>
      if 1 ≤ m && m ≤ 12 && 1 ≤ dd && dd ≤ daysInMonth2022 m then
        .ok ⟨2022, m, dd⟩
      else .error .valueError
    | none => .error .valueError

/-- One emitted transaction of the PAYROLL branch: metadata line, date,
ticker, quantity (`Decimal(qty)`), and amount (the cash leg carries
`-amount`, the holding leg `qty` units at cost `amount`; both are determined
by these fields — beancount record construction is out of scope). -/
structure Entry where
  line : Nat
  date : PyDate
  ticker : Value
  qty : ℚ
  amount : ℚ
  deriving DecidableEq, Repr

/-- The posting loop of the PAYROLL branch: per posting, fetch the amount
(string → `TypeError`), accumulate it into the running total, convert the
quantity through `Decimal`, parse the transaction date, and emit an entry. -/
def payrollEntries (opDate : Value) (running : ℚ) :
    List PostOp → Except PyErr (List Entry × ℚ)
  | [] => .ok ([], running)
  | p :: ps =>
    match asNumV p.amount with
    | .error e => .error e
    | .ok a =>
      match pyDecimalV p.qty with
      | .error e => .error e
      | .ok q =>
        match strptimeMD2022 opDate with
        | .error e => .error e
        | .ok d =>
          match payrollEntries opDate (qadd running a) ps with
          | .error e => .error e
          | .ok (es, r) => .ok (⟨p.line, d, p.ticker, q, a⟩ :: es, r)

/-- `[post for post in all_postings if line_begin < post[0] < line_end]`. -/
def strictWindow (posts : List PostOp) (lineBegin lineEnd : Nat) : List PostOp :=
  posts.filter (fun p => lineBegin < p.line && p.line < lineEnd)

/-- `total_amount`: the event amount for PAYROLL/DIVIDEND, its negation for
FEE, and the initial `0` for EXCHANGE. -/
def totalAmountOf (op : AggrOp) : Except PyErr Value :=
  match op.kind with
  | .payroll => .ok op.amount
  | .dividend => .ok op.amount
  | .fee => (pyNegV op.amount).map .num
  | .exchange => .ok (.num 0)

def RELTOL : ℚ := mkRat 1 1000000000

def ABSTOL : ℚ := mkRat 1 100

/-- `math.isclose(a, b, abs_tol=0.01)` (`rel_tol` keeps its default `1e-9`):
`|a-b| ≤ max(rel_tol * max(|a|,|b|), abs_tol)`. -/
def iscloseQ (a b : ℚ) : Bool :=
  qabs (qsub a b) ≤ qmax (qmul RELTOL (qmax (qabs a) (qabs b))) ABSTOL

/-- One iteration of the `extract` loop: collect the strict window, `continue`
if it contains a SELL, compute the expected total, run the PAYROLL body (the
FEE/EXCHANGE/DIVIDEND bodies are `pass`), and for PAYROLL check
`math.isclose(running_amount, total_amount, abs_tol=0.01)` — a violation is a
bare `raise` (`RuntimeError`) aborting the whole file. -/
def processGroup (op : AggrOp) (lineEnd : Nat) (posts : List PostOp) :
    Except PyErr (List Entry) :=
  let fp := strictWindow posts op.line lineEnd
  if fp.any (fun p => p.kind == PostKind.sell) then .ok []
  else
    match totalAmountOf op with
    | .error e => .error e
    | .ok total =>
      match op.kind with
      | .payroll =>
        match payrollEntries op.date 0 fp with
        | .error e => .error e
        | .ok (es, running) =>
          match asNumV total with
          | .error e => .error e
          | .ok t => if iscloseQ running t then .ok es else .error .runtimeError
      | _ => .ok []

/-- Pair each event with the closing bound of its window: the next event's
line, or `maxLineEnd` for the final event. -/
def windowEnds (maxLineEnd : Nat) : List AggrOp → List (AggrOp × Nat)
  | [] => []
  | [op] => [(op, maxLineEnd)]
  | op :: next :: rest => (op, next.line) :: windowEnds maxLineEnd (next :: rest)

/-- Effectful map over `Except`: the first raised exception aborts (and
discards every previously produced element, as an uncaught Python exception
does). -/
def mapE (f : α → Except PyErr β) : List α → Except PyErr (List β)
  | [] => .ok []
  | a :: as' =>
    match f a with
    | .error e => .error e
    | .ok b =>
      match mapE f as' with
      | .error e => .error e
      | .ok bs => .ok (b :: bs)

/-- The loop of `extract` after `getOperations`:
`max_line_end = max(aggregate_ops[-1][0], all_postings[-1][0]) + 1` raises
`IndexError` on an empty list, then each event is processed over its window. -/
def extractCore (aggrOps : List AggrOp) (posts : List PostOp) :
    Except PyErr (List Entry) :=
  match aggrOps.getLast?, posts.getLast? with
  | some la, some lp =>
    let maxLineEnd := max la.line lp.line + 1
    (mapE (fun oe => processGroup oe.1 oe.2 posts)
      (windowEnds maxLineEnd aggrOps)).map List.flatten
  | _, _ => .error .indexError

/-- `extract` = `getOperations` followed by the aggregation loop (identify and
PDF-text extraction are I/O shims outside this model). -/
def extractFull (accountNumber text : List Char) : Except PyErr (List Entry) :=
  match getOperations accountNumber text with
  | .error e => .error e
  | .ok (aggr, posts) => extractCore aggr posts

/-! ## The tabular projection (`read_file` of `guidelinereader.py`) -/

/-- One data row of the built csv:
`[kind, date, '', ticker, str(qty), str(price), str(amount), '']`, with the
amount moved to the `Fees & Comm` column for FEE groups.  The `petl` wrapping
(`etl.head(csv, len(csv)-1)` keeps every data row) and the later column
conversions are out-of-scope adapters. -/
structure Row where
  action : PostKind
  date : List Char
  symbol : Value
  quantity : ℚ
  price : ℚ
  amount : Option ℚ
  fees : Option ℚ
  deriving DecidableEq, Repr

/-- `amount/post[2]['qty']` with no guard: a float division by `0.0` raises
`ZeroDivisionError`; string operands raise `TypeError`. -/
def rowOf (date : List Char) (isFee : Bool) (p : PostOp) : Except PyErr Row :=
  match p.amount, p.qty with
  | .num a, .num q =>
    if q = 0 then .error .zeroDivisionError
    else
      .ok ⟨p.kind, date, p.ticker, q, qdiv a q,
        if isFee then none else some a, if isFee then some a else none⟩
  | _, _ => .error .typeError

/-- `post[0] in range(min_line, max_line)` — the lower bound is *inclusive*. -/
def inclWindow (posts : List PostOp) (minLine maxLine : Nat) : List PostOp :=
  posts.filter (fun p => minLine ≤ p.line && p.line < maxLine)

/-- `date = aggr[2]['date'] + '/' + statement_year` (string concatenation; a
float date would be a `TypeError`). -/
def dateOfAggr (op : AggrOp) (year : List Char) : Except PyErr (List Char) :=
  match op.date with
  | .str d => .ok (d ++ '/' :: year)
  | .num _ => .error .typeError

def groupRows (year : List Char) (posts : List PostOp) (oe : AggrOp × Nat) :
    Except PyErr (List Row) :=
  match dateOfAggr oe.1 year with
  | .error e => .error e
  | .ok date =>
    mapE (rowOf date (oe.1.kind == AggrKind.fee)) (inclWindow posts oe.1.line oe.2)

/-- The row-building loop of `read_file`: the final window closes at
`num_lines = len(text.splitlines())` of the **raw** statement text, the
window's lower bound is inclusive, and no SELL filtering happens here. -/
def readFileCore (year : List Char) (numLines : Nat)
    (aggrOps : List AggrOp) (posts : List PostOp) : Except PyErr (List Row) :=
  (mapE (groupRows year posts) (windowEnds numLines aggrOps)).map List.flatten

end Guideline

namespace Guideline

/-! ## Vocabulary used by the theorem statements -/

/-- The `max(aggregate_ops[-1][0], all_postings[-1][0]) + 1` bound of
`extract`, as a partial value (`none` exactly when `extract` would raise
`IndexError`). -/
def maxLineEnd? (aggrOps : List AggrOp) (posts : List PostOp) : Option Nat :=
  match aggrOps.getLast?, posts.getLast? with
  | some la, some lp => some (max la.line lp.line + 1)
  | _, _ => none

/-- The numeric content of a converted value (`0` for strings; only used on
values proved numeric). -/
def numOf : Value → ℚ
  | .num q => q
  | .str _ => 0

/-- The sum of the posting amounts of a group, as the specification's
`running_total`. -/
def sumAmounts (ps : List PostOp) : ℚ :=
  ps.foldr (fun p acc => numOf p.amount + acc) 0

/-- Cumulative start offset of line `k` in a `'\n'.join`-ed text. -/
def lineStartOffset (lines : List (List Char)) (k : Nat) : Nat :=
  (((lines.take k).map (fun l => l.length + 1)).sum)

/-! ## Concrete inputs for the counterexamples and witnesses -/

/-- A DIVIDEND event whose window total (1) is far from its stated amount
(100). -/
def c1DivOp : AggrOp := ⟨0, .dividend, .str "01/15".toList, .num 100⟩

def c1DivPost : PostOp := ⟨1, .buy, .str "ABC".toList, .num 5, .num 1⟩

/-- A PAYROLL event over postings summing exactly to its stated amount. -/
def c1PayOp : AggrOp := ⟨0, .payroll, .str "01/15".toList, .num 1000⟩

def c1PayPosts : List PostOp :=
  [⟨1, .buy, .str "ABC".toList, .num 5, .num 600⟩,
   ⟨2, .buy, .str "XYZ".toList, .num 2, .num 400⟩]

/-- A PAYROLL event whose window contains a SELL posting. -/
def c2PayOp : AggrOp := ⟨0, .payroll, .str "01/15".toList, .num 600⟩

def c2SellPost : PostOp := ⟨1, .sell, .str "ABC".toList, .num 5, .num 600⟩

/-- An event and a posting sharing line 1, plus a later posting on line 3. -/
def c3Op : AggrOp := ⟨1, .payroll, .str "01/15".toList, .num 600⟩

def c3Posts : List PostOp :=
  [⟨1, .buy, .str "ABC".toList, .num 5, .num 600⟩,
   ⟨3, .buy, .str "XYZ".toList, .num 2, .num 600⟩]

/-- A statement with a year line, a single account line, the body marker, and
one BUY posting line — but zero aggregate events. -/
def c4Text : List Char :=
  ("Quarterly Statement Q1 2023\n" ++
   "AB12-34CD\n" ++
   "DATE ACTION SOURCE PRE-TAX ROTH EMPLOYER TOTAL\n" ++
   "Buy ABC 5.0 something $600.00\n" ++
   "closing line xyz").toList

def c4Account : List Char := "AB12-34CD".toList

/-- The same single account identifier on two different lines. -/
def c5Text : List Char :=
  ("AB12-34CD\n" ++
   "some filler line\n" ++
   "AB12-34CD").toList

/-- A marker line followed by one ordinary body line. -/
def c6Text : List Char :=
  ("DATE ACTION SOURCE PRE-TAX ROTH EMPLOYER TOTAL\n" ++
   "Hello World abc").toList

/-- A document that does not contain the transaction-begin marker. -/
def c7Text : List Char := "Hello World abc".toList

/-- A full statement whose year line says 2023; its payroll posting is on an
inner line, so extraction succeeds. -/
def c8Text : List Char :=
  ("Quarterly Statement Q1 2023\n" ++
   "AB12-34CD\n" ++
   "DATE ACTION SOURCE PRE-TAX ROTH EMPLOYER TOTAL\n" ++
   "01/15 Buy Payroll contribution xyz $600.00\n" ++
   "Buy ABC 5.0 something $600.00\n" ++
   "closing line xyz").toList

def c8Account : List Char := "AB12-34CD".toList

/-- A statement whose final cleaned line is a BUY posting line; the cleaned
text has no trailing newline, so that line has no `LineIndex` entry. -/
def c9Text : List Char :=
  ("Quarterly Statement Q1 2023\n" ++
   "AB12-34CD\n" ++
   "DATE ACTION SOURCE PRE-TAX ROTH EMPLOYER TOTAL\n" ++
   "01/15 Buy Payroll contribution xyz $600.00\n" ++
   "Buy ABC 5.0 something $600.00").toList

def c9Account : List Char := "AB12-34CD".toList

def c9Lines : List (List Char) :=
  ["01/15 Buy Payroll contribution xyz $600.00".toList,
   "Buy ABC 5.0 something $600.00".toList]

/-- A DIVIDEND group whose posting has quantity zero. -/
def c10Op : AggrOp := ⟨0, .dividend, .str "02/20".toList, .num 7⟩

def c10GoodPosts : List PostOp :=
  [⟨1, .reinvest, .str "ABC".toList, .num 5, .num 7⟩]

def c10ZeroPosts : List PostOp :=
  [⟨1, .reinvest, .str "ABC".toList, .num 0, .num 7⟩]

end Guideline

namespace Guideline

/-! # Theorems -/

/-! ## The arithmetic wrappers compute the `ℚ` field operations -/

theorem qadd_eq (a b : ℚ) : qadd a b = a + b := (Rat.add_def' a b).symm

theorem qsub_eq (a b : ℚ) : qsub a b = a - b := (Rat.sub_def' a b).symm

theorem qmul_eq (a b : ℚ) : qmul a b = a * b := by
  rw [qmul, Rat.mul_def, Rat.normalize_eq_mkRat]

theorem qdiv_eq (a b : ℚ) : qdiv a b = a / b := by
  rw [qdiv, Rat.div_def, Rat.inv_def]
  by_cases hb : b.num = 0
  · simp [hb]
  · rw [← Rat.divInt_mul_divInt a.num (b.den : Int) (Int.natCast_ne_zero.mpr a.den_nz) hb,
      Rat.divInt_self]

theorem qabs_eq (a : ℚ) : qabs a = |a| := by
  rw [qabs]; split
  · exact (abs_of_nonneg (by assumption)).symm
  · exact (abs_of_neg (not_le.mp (by assumption))).symm

theorem qmax_eq (a b : ℚ) : qmax a b = max a b := by rw [qmax, max_def]



/-! ## Helper lemmas on `mapE` -/

theorem mapE_ok_forall {α β : Type} {f : α → Except PyErr β} :
    ∀ {l : List α} {bs : List β}, mapE f l = .ok bs → ∀ a ∈ l, ∃ b, f a = .ok b := by
  intro l
  induction l with
  | nil => intro bs _ a ha; cases ha
  | cons x xs ih =>
    intro bs h a ha
    rw [mapE] at h
    cases hfx : f x with
    | error e => rw [hfx] at h; simp at h
    | ok b =>
      rw [hfx] at h
      cases hm : mapE f xs with
      | error e => rw [hm] at h; simp at h
      | ok bs' =>
        rcases List.mem_cons.mp ha with rfl | ha'
        · exact ⟨b, hfx⟩
        · exact ih hm a ha'

theorem mapE_ok_mem {α β : Type} {f : α → Except PyErr β} :
    ∀ {l : List α} {bs : List β}, mapE f l = .ok bs →
      ∀ b ∈ bs, ∃ a ∈ l, f a = .ok b := by
  intro l
  induction l with
  | nil =>
    intro bs h b hb
    rw [mapE] at h
    cases h; cases hb
  | cons x xs ih =>
    intro bs h b hb
    rw [mapE] at h
    cases hfx : f x with
    | error e => rw [hfx] at h; simp at h
    | ok b0 =>
      rw [hfx] at h
      cases hm : mapE f xs with
      | error e => rw [hm] at h; simp at h
      | ok bs' =>
        rw [hm] at h
        simp only [] at h
        cases h
        rcases List.mem_cons.mp hb with rfl | hb'
        · exact ⟨x, List.mem_cons_self x xs, hfx⟩
        · rcases ih hm b hb' with ⟨a, ha, hfa⟩
          exact ⟨a, List.mem_cons_of_mem x ha, hfa⟩

theorem mapE_ok_of_forall {α β : Type} {f : α → Except PyErr β} :
    ∀ {l : List α}, (∀ a ∈ l, ∃ b, f a = .ok b) → ∃ bs, mapE f l = .ok bs := by
  intro l
  induction l with
  | nil => intro _; exact ⟨[], rfl⟩
  | cons x xs ih =>
    intro h
    rcases h x (List.mem_cons_self x xs) with ⟨b, hb⟩
    rcases ih (fun a ha => h a (List.mem_cons_of_mem x ha)) with ⟨bs, hbs⟩
    exact ⟨b :: bs, by rw [mapE, hb, hbs]⟩


/-! ## Helper lemmas on the PAYROLL posting loop -/

theorem payrollEntries_ok_total {opDate : Value} :
    ∀ {ps : List PostOp} {running : ℚ} {es : List Entry} {r : ℚ},
      payrollEntries opDate running ps = .ok (es, r) →
      r = running + sumAmounts ps ∧ ∀ p ∈ ps, ∃ q, p.amount = .num q := by
  intro ps
  induction ps with
  | nil =>
    intro running es r h
    rw [payrollEntries] at h
    cases h
    exact ⟨by simp [sumAmounts], by intro p hp; cases hp⟩
  | cons p ps ih =>
    intro running es r h
    rw [payrollEntries] at h
    cases ha : asNumV p.amount with
    | error e => simp [ha] at h
    | ok a =>
      cases hq : pyDecimalV p.qty with
      | error e => simp [ha, hq] at h
      | ok q =>
        cases hd : strptimeMD2022 opDate with
        | error e => simp [ha, hq, hd] at h
        | ok d =>
          cases hr : payrollEntries opDate (qadd running a) ps with
          | error e => simp [ha, hq, hd, hr] at h
          | ok esr =>
            obtain ⟨es', r'⟩ := esr
            simp only [ha, hq, hd, hr, Except.ok.injEq, Prod.mk.injEq] at h
            obtain ⟨hes, hr2⟩ := h
            rcases ih hr with ⟨hsum, hnum⟩
            have hpa : p.amount = .num a := by
              cases hpam : p.amount with
              | num q' => rw [hpam, asNumV] at ha; cases ha; rfl
              | str s => rw [hpam, asNumV] at ha; cases ha
            refine ⟨?_, ?_⟩
            · rw [← hr2, hsum, qadd_eq]
              simp only [sumAmounts, List.foldr_cons, hpa, numOf]
              show running + a + _ = running + (a + _)
              ring
            · intro p' hp'
              rcases List.mem_cons.mp hp' with rfl | hp''
              · exact ⟨a, hpa⟩
              · exact hnum p' hp''

theorem payrollEntries_ok_dates {opDate : Value} :
    ∀ {ps : List PostOp} {running : ℚ} {es : List Entry} {r : ℚ},
      payrollEntries opDate running ps = .ok (es, r) →
      ∀ e ∈ es, e.date.year = 2022 := by
  intro ps
  induction ps with
  | nil =>
    intro running es r h
    rw [payrollEntries] at h
    cases h
    intro e he; cases he
  | cons p ps ih =>
    intro running es r h
    rw [payrollEntries] at h
    cases ha : asNumV p.amount with
    | error e => simp [ha] at h
    | ok a =>
      cases hq : pyDecimalV p.qty with
      | error e => simp [ha, hq] at h
      | ok q =>
        cases hd : strptimeMD2022 opDate with
        | error e => simp [ha, hq, hd] at h
        | ok d =>
          cases hr : payrollEntries opDate (qadd running a) ps with
          | error e => simp [ha, hq, hd, hr] at h
          | ok esr =>
            obtain ⟨es', r'⟩ := esr
            simp only [ha, hq, hd, hr, Except.ok.injEq, Prod.mk.injEq] at h
            obtain ⟨hes, hr2⟩ := h
            have hdy : d.year = 2022 := by
              cases hod : opDate with
              | num q' => rw [hod, strptimeMD2022] at hd; cases hd
              | str ds =>
                rw [hod, strptimeMD2022] at hd
                cases hmd : parseMDNum ds with
                | none => rw [hmd] at hd; cases hd
                | some md =>
                  obtain ⟨m, dd⟩ := md
                  simp only [hmd] at hd
                  by_cases hrange : (1 ≤ m && m ≤ 12 && 1 ≤ dd &&
                      dd ≤ daysInMonth2022 m) = true
                  · simp only [hrange, if_true] at hd
                    cases hd; rfl
                  · simp only [if_neg (fun hc => hrange hc)] at hd
                    cases hd
            intro e he
            rw [← hes] at he
            rcases List.mem_cons.mp he with rfl | he'
            · exact hdy
            · exact ih hr e he'


/-! ## Claim C1 — reconciliation -/

theorem processGroup_payroll_ok {op : AggrOp} {lineEnd : Nat} {posts : List PostOp}
    {es : List Entry} (h : processGroup op lineEnd posts = .ok es)
    (hk : op.kind = .payroll)
    (hns : (strictWindow posts op.line lineEnd).any (fun p => p.kind == PostKind.sell) = false) :
    ∃ t, op.amount = .num t ∧
      iscloseQ (sumAmounts (strictWindow posts op.line lineEnd)) t = true := by
  simp only [processGroup, hns, Bool.false_eq_true, if_false, totalAmountOf, hk] at h
  cases hpe : payrollEntries op.date 0 (strictWindow posts op.line lineEnd) with
  | error e => simp [hpe] at h
  | ok esr =>
    obtain ⟨es', running⟩ := esr
    simp only [hpe] at h
    cases hts : asNumV op.amount with
    | error e => simp [hts] at h
    | ok t =>
      simp only [hts] at h
      by_cases hcl : iscloseQ running t = true
      · refine ⟨t, ?_, ?_⟩
        · cases hoa : op.amount with
          | num q' => rw [hoa, asNumV] at hts; cases hts; rfl
          | str s => rw [hoa, asNumV] at hts; cases hts
        · rcases payrollEntries_ok_total hpe with ⟨hsum, _⟩
          have : sumAmounts (strictWindow posts op.line lineEnd) = running := by
            rw [hsum]; ring
          rw [this]; exact hcl
      · simp only [if_neg hcl] at h
        exact Except.noConfusion h

/-- C1 (amended): only PAYROLL groups are reconciled.  In every successful
extraction, each PAYROLL event (over a SELL-free window) has numeric posting
amounts summing to within `math.isclose(…, abs_tol=0.01)` (with the default
`rel_tol=1e-9`) of its stated amount; a violating PAYROLL group aborts the
whole file.  FEE, EXCHANGE and DIVIDEND groups are never checked (their loop
bodies are `pass`). -/
theorem c1_only_payroll_reconciled :
    ∀ (aggrOps : List AggrOp) (posts : List PostOp) (es : List Entry) (m : Nat),
      extractCore aggrOps posts = .ok es →
      maxLineEnd? aggrOps posts = some m →
      ∀ oe ∈ windowEnds m aggrOps, oe.1.kind = .payroll →
        (strictWindow posts oe.1.line oe.2).any (fun p => p.kind == PostKind.sell) = false →
        ∃ t, oe.1.amount = .num t ∧
          iscloseQ (sumAmounts (strictWindow posts oe.1.line oe.2)) t = true := by
  intro aggrOps posts es m h hm oe hoe hk hns
  rw [maxLineEnd?] at hm
  cases hla : aggrOps.getLast? with
  | none => rw [hla] at hm; cases posts.getLast? <;> cases hm
  | some la =>
    cases hlp : posts.getLast? with
    | none => rw [hla, hlp] at hm; cases hm
    | some lp =>
      rw [hla, hlp] at hm
      simp only [Option.some.injEq] at hm
      subst hm
      simp only [extractCore, hla, hlp] at h
      cases hmE : mapE (fun oe => processGroup oe.1 oe.2 posts)
          (windowEnds (max la.line lp.line + 1) aggrOps) with
      | error e => rw [hmE] at h; simp [Except.map] at h
      | ok bs =>
        rcases mapE_ok_forall hmE oe hoe with ⟨b, hb⟩
        exact processGroup_payroll_ok hb hk hns

/-- C1 counterexample: a DIVIDEND group whose posting sum (1) differs from the
stated amount (100) by far more than the 0.01 tolerance is processed without
any fatal error — `extract` returns successfully (with no entries), because
the reconciliation check only ever runs for PAYROLL events. -/
theorem c1_dividend_unchecked_cex :
    extractCore [c1DivOp] [c1DivPost] = .ok [] ∧
    sumAmounts (strictWindow [c1DivPost] c1DivOp.line 2) = 1 ∧
    c1DivOp.amount = .num 100 ∧
    iscloseQ 1 100 = false := by
  refine ⟨by decide, ?_, by decide, by decide⟩
  norm_num [sumAmounts, strictWindow, c1DivPost, c1DivOp, numOf]

/-- C1 witness: a PAYROLL group with postings 600 + 400 against a stated
amount of 1000 extracts successfully and satisfies the reconciliation bound. -/
theorem c1_witness :
    ∃ t, c1PayOp.amount = .num t ∧
      iscloseQ (sumAmounts (strictWindow c1PayPosts c1PayOp.line 3)) t = true := by
  have h : extractCore [c1PayOp] c1PayPosts =
      .ok [⟨1, ⟨2022, 1, 15⟩, .str "ABC".toList, 5, 600⟩,
        ⟨2, ⟨2022, 1, 15⟩, .str "XYZ".toList, 2, 400⟩] := by decide
  exact c1_only_payroll_reconciled [c1PayOp] c1PayPosts _ 3 h (by decide)
    (c1PayOp, 3) (by decide) rfl (by decide)


/-! ## Claim C2 — SELL suppression -/

/-- C2 (amended): the SELL discard is a feature of the transaction-extraction
path only: in `extract`, a group whose window contains a SELL posting is
skipped wholesale (no entries, no reconciliation check).  The tabular
projection of `read_file` performs no such filtering and emits a row for
every posting of the window, SELL included (see the counterexample). -/
theorem c2_sell_discard_extract_only :
    ∀ (op : AggrOp) (lineEnd : Nat) (posts : List PostOp),
      (strictWindow posts op.line lineEnd).any (fun p => p.kind == PostKind.sell) = true →
      processGroup op lineEnd posts = .ok [] := by
  intro op lineEnd posts h
  simp only [processGroup, h, if_true]

/-- C2 counterexample: a PAYROLL window containing a SELL posting emits no
transaction entries, but the tabular projection still produces a row for the
SELL posting — contradicting "no tabular row is produced for any posting in
that window". -/
theorem c2_sell_rows_in_tabular_cex :
    readFileCore "2022".toList 5 [c2PayOp] [c2SellPost] =
      .ok [⟨.sell, "01/15/2022".toList, .str "ABC".toList, 5, 120, some 600, none⟩] ∧
    extractCore [c2PayOp] [c2SellPost] = .ok [] := ⟨rfl, rfl⟩

/-- C2 witness: the amended theorem applied to the SELL-containing window. -/
theorem c2_witness : processGroup c2PayOp 2 [c2SellPost] = .ok [] :=
  c2_sell_discard_extract_only c2PayOp 2 [c2SellPost] (by decide)

/-! ## Claim C3 — window bounds -/

/-- C3 (amended): the two outputs use different windows.  The transaction
extraction collects postings with `event.line < posting.line < window_end`
(both bounds strict, final bound `max(last event, last posting) + 1`), but
the tabular projection uses `posting.line ∈ range(event.line, window_end)` —
an *inclusive* lower bound — with the final bound equal to the raw
statement's `len(text.splitlines())`.  A posting on its event's line is
therefore excluded from the transaction output but included in the tabular
output.  In both, the non-final window ends at the next event's line. -/
theorem c3_window_bounds :
    ∀ (posts : List PostOp) (lb le : Nat) (p : PostOp),
      (p ∈ strictWindow posts lb le ↔ (p ∈ posts ∧ lb < p.line ∧ p.line < le)) ∧
      (p ∈ inclWindow posts lb le ↔ (p ∈ posts ∧ lb ≤ p.line ∧ p.line < le)) ∧
      (∀ (m : Nat) (a : AggrOp), windowEnds m [a] = [(a, m)]) ∧
      (∀ (m : Nat) (a b : AggrOp) (rest : List AggrOp),
        windowEnds m (a :: b :: rest) = (a, b.line) :: windowEnds m (b :: rest)) := by
  intro posts lb le p
  refine ⟨?_, ?_, fun m a => rfl, fun m a b rest => rfl⟩
  · simp [strictWindow, List.mem_filter, and_assoc]
  · simp [inclWindow, List.mem_filter, and_assoc]

/-- C3 counterexample: an event on line 1 with postings on lines 1 and 3
(`num_lines = 2`).  The claim predicts that in both outputs exactly the
line-3 posting is assigned.  The transaction output indeed contains only the
line-3 posting, but the tabular output contains only the *line-1* posting:
the equal-line posting is included (inclusive lower bound) and the line-3
posting is dropped (final bound `num_lines = 2`, not `max+1 = 4`). -/
theorem c3_equal_line_assignment_cex :
    extractCore [c3Op] c3Posts =
      .ok [⟨3, ⟨2022, 1, 15⟩, .str "XYZ".toList, 2, 600⟩] ∧
    readFileCore "2022".toList 2 [c3Op] c3Posts =
      .ok [⟨.buy, "01/15/2022".toList, .str "ABC".toList, 5, 120, some 600, none⟩] :=
  ⟨rfl, rfl⟩

/-! ## Claim C4 — zero aggregate events -/

/-- C4 (amended): when the pattern matcher finds zero aggregate events the
matching layer itself succeeds with an empty list, but `extract` then
evaluates `aggregate_ops[-1][0]` on that empty list and the whole extraction
raises `IndexError` — it does *not* return an empty result. -/
theorem c4_zero_aggregates_index_error :
    ∀ (acct text : List Char) (posts : List PostOp),
      getOperations acct text = .ok ([], posts) →
      extractFull acct text = .error .indexError := by
  intro acct text posts h
  rw [extractFull, h]
  rfl

/-- C4 counterexample: a well-formed statement (year line, one account,
marker) containing one BUY posting and zero aggregate events: `getOperations`
returns empty aggregates without error, and extraction raises `IndexError`
instead of returning an empty entry list. -/
theorem c4_zero_aggregates_cex :
    getOperations c4Account c4Text =
      .ok ([], [⟨0, .buy, .str "ABC".toList, .num 5, .num 600⟩]) ∧
    extractFull c4Account c4Text = .error .indexError := ⟨rfl, rfl⟩

/-- C4 witness: the amended theorem applied to the zero-aggregate statement. -/
theorem c4_witness : extractFull c4Account c4Text = .error .indexError :=
  c4_zero_aggregates_index_error c4Account c4Text
    [⟨0, .buy, .str "ABC".toList, .num 5, .num 600⟩] rfl

/-! ## Claim C5 — account search -/

/-- C5 (amended): `_searchAccounts` counts *matching lines (occurrences)*,
not distinct identifiers: it raises the bare-`raise` `RuntimeError` exactly
when two or more lines match the account pattern (even if they all carry the
same identifier), returns the first matching line when exactly one matches,
and raises `IndexError` (from `accounts[0]`) when none matches. -/
theorem c5_account_search_counts_occurrences :
    ∀ (t : List Char),
      (searchAccounts t = .error .runtimeError ↔
        2 ≤ ((pySplitlines t).filter lineIsAccount).length) ∧
      (∀ a, searchAccounts t = .ok a ↔ (pySplitlines t).filter lineIsAccount = [a]) ∧
      (searchAccounts t = .error .indexError ↔
        (pySplitlines t).filter lineIsAccount = []) := by
  intro t
  cases hacc : (pySplitlines t).filter lineIsAccount with
  | nil => simp [searchAccounts, hacc]
  | cons a rest =>
    cases rest with
    | nil => simp [searchAccounts, hacc]
    | cons b rest' =>
      have hlt : 1 < ((a :: b :: rest') : List (List Char)).length := by
        simp [List.length_cons]
      refine ⟨?_, ?_, ?_⟩
      · simp only [searchAccounts, hacc]
        rw [if_pos hlt]
        constructor
        · intro _; simp [List.length_cons]
        · intro _; rfl
      · intro a'
        simp only [searchAccounts, hacc]
        rw [if_pos hlt]
        simp
      · simp only [searchAccounts, hacc]
        rw [if_pos hlt]
        simp

/-- C5 counterexample: the same identifier `AB12-34CD` on two lines — one
distinct account identifier — nevertheless aborts with the bare-`raise`
`RuntimeError`, because `findall` counts occurrences. -/
theorem c5_duplicate_account_cex :
    searchAccounts c5Text = .error .runtimeError ∧
    (pySplitlines c5Text).filter lineIsAccount =
      ["AB12-34CD".toList, "AB12-34CD".toList] := ⟨rfl, rfl⟩


/-! ## Claim C8 — dates of emitted transactions and rows -/

theorem processGroup_ok_dates {op : AggrOp} {lineEnd : Nat} {posts : List PostOp}
    {es : List Entry} (h : processGroup op lineEnd posts = .ok es) :
    ∀ e ∈ es, e.date.year = 2022 := by
  cases hv : (strictWindow posts op.line lineEnd).any (fun p => p.kind == PostKind.sell) with
  | true =>
    simp only [processGroup, hv, if_true] at h
    cases h
    intro e he; cases he
  | false =>
    simp only [processGroup, hv, Bool.false_eq_true, if_false] at h
    cases hk : op.kind with
    | payroll =>
      simp only [totalAmountOf, hk] at h
      cases hpe : payrollEntries op.date 0 (strictWindow posts op.line lineEnd) with
      | error e => simp [hpe] at h
      | ok esr =>
        obtain ⟨es', running⟩ := esr
        simp only [hpe] at h
        cases hts : asNumV op.amount with
        | error e => simp [hts] at h
        | ok t =>
          simp only [hts] at h
          by_cases hcl : iscloseQ running t = true
          · simp only [hcl, if_true, Except.ok.injEq] at h
            subst h
            exact payrollEntries_ok_dates hpe
          · simp only [if_neg hcl] at h
            exact Except.noConfusion h
    | fee =>
      simp only [totalAmountOf, hk] at h
      cases hn : pyNegV op.amount with
      | error e => simp [hn, Except.map] at h
      | ok q =>
        simp only [hn, Except.map, Except.ok.injEq] at h
        rw [← h]
        intro e he; cases he
    | exchange =>
      simp only [totalAmountOf, hk, Except.ok.injEq] at h
      rw [← h]
      intro e he; cases he
    | dividend =>
      simp only [totalAmountOf, hk, Except.ok.injEq] at h
      rw [← h]
      intro e he; cases he

theorem groupRows_ok_dates {year : List Char} {posts : List PostOp}
    {oe : AggrOp × Nat} {rows : List Row} (h : groupRows year posts oe = .ok rows) :
    ∃ d, oe.1.date = .str d ∧ ∀ r ∈ rows, r.date = d ++ '/' :: year := by
  rw [groupRows] at h
  cases hda : dateOfAggr oe.1 year with
  | error e => simp [hda] at h
  | ok date =>
    simp only [hda] at h
    have hd : ∃ d, oe.1.date = .str d ∧ date = d ++ '/' :: year := by
      cases hod : oe.1.date with
      | str d =>
        simp only [dateOfAggr, hod, Except.ok.injEq] at hda
        exact ⟨d, rfl, hda.symm⟩
      | num q => simp [dateOfAggr, hod] at hda
    rcases hd with ⟨d, hod, hdate⟩
    refine ⟨d, hod, ?_⟩
    intro r hr
    rcases mapE_ok_mem h r hr with ⟨p, hp, hrow⟩
    have hrd : r.date = date := by
      cases hpa : p.amount with
      | str s => simp [rowOf, hpa] at hrow
      | num a =>
        cases hpq : p.qty with
        | str s => simp [rowOf, hpa, hpq] at hrow
        | num q0 =>
          by_cases hz : q0 = 0
          · simp [rowOf, hpa, hpq, hz] at hrow
          · simp only [rowOf, hpa, hpq, if_neg hz, Except.ok.injEq] at hrow
            rw [← hrow]
    rw [hrd, hdate]

/-- C8 (amended): the tabular projection dates each row with the owning
event's partial month/day date concatenated with the externally supplied
statement year; but the transaction extraction does *not* use the statement
year — every emitted transaction is dated with the hard-coded constant year
2022 (`strptime(op[2]['date'] + '/2022', …)`), whatever year the statement
declares. -/
theorem c8_dates :
    (∀ (aggrOps : List AggrOp) (posts : List PostOp) (es : List Entry),
      extractCore aggrOps posts = .ok es → ∀ e ∈ es, e.date.year = 2022) ∧
    (∀ (year : List Char) (numLines : Nat) (aggrOps : List AggrOp)
        (posts : List PostOp) (rows : List Row),
      readFileCore year numLines aggrOps posts = .ok rows →
      ∀ r ∈ rows, ∃ oe ∈ windowEnds numLines aggrOps, ∃ d,
        oe.1.date = .str d ∧ r.date = d ++ '/' :: year) := by
  constructor
  · intro aggrOps posts es h e he
    cases hla : aggrOps.getLast? with
    | none => simp [extractCore, hla] at h
    | some la =>
      cases hlp : posts.getLast? with
      | none => simp [extractCore, hla, hlp] at h
      | some lp =>
        simp only [extractCore, hla, hlp] at h
        cases hm : mapE (fun oe => processGroup oe.1 oe.2 posts)
            (windowEnds (max la.line lp.line + 1) aggrOps) with
        | error er => rw [hm] at h; simp [Except.map] at h
        | ok bs =>
          rw [hm] at h
          simp only [Except.map, Except.ok.injEq] at h
          rw [← h] at he
          rcases List.mem_flatten.mp he with ⟨g, hg, heg⟩
          rcases mapE_ok_mem hm g hg with ⟨oe, _, hog⟩
          exact processGroup_ok_dates hog e heg
  · intro year numLines aggrOps posts rows h r hr
    rw [readFileCore] at h
    cases hm : mapE (groupRows year posts) (windowEnds numLines aggrOps) with
    | error er => rw [hm] at h; simp [Except.map] at h
    | ok bs =>
      rw [hm] at h
      simp only [Except.map, Except.ok.injEq] at h
      rw [← h] at hr
      rcases List.mem_flatten.mp hr with ⟨g, hg, hrg⟩
      rcases mapE_ok_mem hm g hg with ⟨oe, hoe, hog⟩
      rcases groupRows_ok_dates hog with ⟨d, hod, hall⟩
      exact ⟨oe, hoe, d, hod, hall r hrg⟩

set_option maxRecDepth 20000 in
/-- C8 counterexample: a statement whose year line reads
`Quarterly Statement Q1 2023` still yields a transaction dated in year 2022 —
the extraction's year is the constant `'/2022'`, not the externally supplied
year. -/
theorem c8_constant_year_cex :
    matchYearStart (removeOneCharLines c8Text) = some "2023".toList ∧
    extractFull c8Account c8Text =
      .ok [⟨1, ⟨2022, 1, 15⟩, .str "ABC".toList, 5, 600⟩] := ⟨rfl, rfl⟩

/-- C8 witness: the amended theorem applied to a concrete one-group
extraction. -/
theorem c8_witness :
    ∀ e ∈ [(⟨1, ⟨2022, 1, 15⟩, Value.str "ABC".toList, 5, 600⟩ : Entry)],
      e.date.year = 2022 :=
  c8_dates.1 [⟨0, .payroll, .str "01/15".toList, .num 600⟩]
    [⟨1, .buy, .str "ABC".toList, .num 5, .num 600⟩] _ rfl

/-! ## Claim C10 — tabular price division -/

/-- C10: the tabular projection computes each row's price as
`amount / qty` with no zero guard: with well-typed fields (string date,
numeric amount and quantity), row building succeeds if and only if no posting
in any window has quantity zero; a zero quantity makes the whole
`read_file` computation fail (`ZeroDivisionError`) instead of producing a
row. -/
theorem c10_price_division_no_guard :
    ∀ (year : List Char) (numLines : Nat) (aggrOps : List AggrOp) (posts : List PostOp),
      (∀ oe ∈ windowEnds numLines aggrOps, ∃ d, oe.1.date = .str d) →
      (∀ oe ∈ windowEnds numLines aggrOps, ∀ p ∈ inclWindow posts oe.1.line oe.2,
        (∃ a, p.amount = .num a) ∧ ∃ q, p.qty = .num q) →
      ((∃ rows, readFileCore year numLines aggrOps posts = .ok rows) ↔
        ∀ oe ∈ windowEnds numLines aggrOps, ∀ p ∈ inclWindow posts oe.1.line oe.2,
          p.qty ≠ .num 0) := by
  intro year numLines aggrOps posts hdates hwf
  constructor
  · rintro ⟨rows, hrows⟩ oe hoe p hp
    rw [readFileCore] at hrows
    cases hm : mapE (groupRows year posts) (windowEnds numLines aggrOps) with
    | error e => rw [hm] at hrows; simp [Except.map] at hrows
    | ok bs =>
      rcases mapE_ok_forall hm oe hoe with ⟨g, hg⟩
      rw [groupRows] at hg
      cases hda : dateOfAggr oe.1 year with
      | error e => simp [hda] at hg
      | ok date =>
        simp only [hda] at hg
        rcases mapE_ok_forall hg p hp with ⟨r, hr⟩
        rcases hwf oe hoe p hp with ⟨⟨a, ha⟩, ⟨q, hq⟩⟩
        intro hq0
        simp [rowOf, ha, hq0] at hr
  · intro hnz
    have hall : ∀ oe ∈ windowEnds numLines aggrOps, ∃ g, groupRows year posts oe = .ok g := by
      intro oe hoe
      rcases hdates oe hoe with ⟨d, hd⟩
      rw [groupRows]
      simp only [dateOfAggr, hd]
      exact mapE_ok_of_forall (fun p hp => by
        rcases hwf oe hoe p hp with ⟨⟨a, ha⟩, ⟨q, hq⟩⟩
        have hz : ¬ q = 0 := by
          intro h0
          exact hnz oe hoe p hp (by rw [hq, h0])
        exact ⟨⟨p.kind, d ++ '/' :: year, p.ticker, q, qdiv a q,
            if (oe.1.kind == AggrKind.fee) = true then none else some a,
            if (oe.1.kind == AggrKind.fee) = true then some a else none⟩,
          by simp only [rowOf, ha, hq, if_neg hz]⟩)
    rcases mapE_ok_of_forall hall with ⟨bs, hbs⟩
    exact ⟨bs.flatten, by rw [readFileCore, hbs]; rfl⟩

/-- C10 witness: a group with a nonzero quantity builds its rows. -/
theorem c10_witness :
    ∃ rows, readFileCore "2022".toList 5 [c10Op] c10GoodPosts = .ok rows :=
  (c10_price_division_no_guard "2022".toList 5 [c10Op] c10GoodPosts
    (fun oe hoe => by
      have : oe = (c10Op, 5) := by
        simpa [windowEnds] using hoe
      rw [this]
      exact ⟨"02/20".toList, rfl⟩)
    (fun oe hoe p hp => by
      have hoe' : oe = (c10Op, 5) := by simpa [windowEnds] using hoe
      rw [hoe'] at hp
      have hp' : p = ⟨1, .reinvest, .str "ABC".toList, .num 5, .num 7⟩ := by
        simpa [inclWindow, c10GoodPosts, c10Op] using hp
      rw [hp']
      exact ⟨⟨7, rfl⟩, ⟨5, rfl⟩⟩)).mpr (by decide)


/-! ## Claim C9 — offset-to-line resolution -/

theorem lineEnds_no_nl {l : List Char} (h : '\n' ∉ l) : lineEnds l = [] := by
  induction l with
  | nil => rfl
  | cons c rest ih =>
    have hc : ¬ c = '\n' := by
      intro hc; subst hc; exact h (List.mem_cons_self _ _)
    rw [lineEnds, if_neg hc, ih (fun hm => h (List.mem_cons_of_mem c hm))]
    rfl

theorem lineEnds_append_nl {l : List Char} (t : List Char) (h : '\n' ∉ l) :
    lineEnds (l ++ '\n' :: t) =
      (l.length + 1) :: (lineEnds t).map (· + (l.length + 1)) := by
  induction l with
  | nil => simp [lineEnds]
  | cons c rest ih =>
    have hc : ¬ c = '\n' := by
      intro hc; subst hc; exact h (List.mem_cons_self _ _)
    rw [List.cons_append, lineEnds, if_neg hc,
      ih (fun hm => h (List.mem_cons_of_mem c hm))]
    simp only [List.map_cons, List.map_map, List.length_cons]
    exact congrArg (List.cons _)
      (List.map_congr_left (fun x _ => by simp only [Function.comp_apply]; omega))

theorem lineStartOffset_zero (lines : List (List Char)) : lineStartOffset lines 0 = 0 := by
  simp [lineStartOffset]

theorem lineStartOffset_cons_succ (l : List Char) (ls : List (List Char)) (k : Nat) :
    lineStartOffset (l :: ls) (k + 1) = l.length + 1 + lineStartOffset ls k := by
  simp [lineStartOffset, List.take_succ_cons, Nat.add_comm]

/-- C9 (amended): the offset-to-line resolution is correct exactly on the
newline-terminated part of the cleaned text: whenever
`next(i for i in range(len(line)) if line[i] > offset)` succeeds — i.e. the
first `LineIndex` entry strictly greater than the offset exists — the
resulting index `k` is the 0-based line whose character range contains the
offset.  The `LineIndex` built from `.*\n` has no entry for the final,
unterminated line (the cleaned text is a `'\n'.join` and never ends in a
newline), so a match starting on the final line makes the generator raise
`StopIteration` instead of resolving (see the counterexample). -/
theorem c9_offset_resolution :
    ∀ (lines : List (List Char)), (∀ l ∈ lines, '\n' ∉ l) →
    ∀ (p k : Nat), resolveLineIdx (lineEnds (joinLines lines)) p = .ok k →
    ∃ lk, lines.get? k = some lk ∧
      lineStartOffset lines k ≤ p ∧ p < lineStartOffset lines k + lk.length + 1 := by
  intro lines
  induction lines with
  | nil =>
    intro _ p k h
    simp [joinLines, lineEnds, resolveLineIdx] at h
  | cons l ls ih =>
    intro hnl p k h
    cases ls with
    | nil =>
      rw [show joinLines [l] = l from rfl,
        lineEnds_no_nl (hnl l (List.mem_cons_self l [])), resolveLineIdx] at h
      simp at h
    | cons l2 ls2 =>
      rw [show joinLines (l :: l2 :: ls2) = l ++ '\n' :: joinLines (l2 :: ls2) from rfl,
        lineEnds_append_nl _ (hnl l (List.mem_cons_self l _)), resolveLineIdx] at h
      rw [List.findIdx?_cons] at h
      by_cases hp : p < l.length + 1
      · rw [if_pos (by simpa using hp)] at h
        cases h
        refine ⟨l, rfl, ?_, ?_⟩
        · rw [lineStartOffset_zero]; omega
        · rw [lineStartOffset_zero]; omega
      · rw [if_neg (by simpa using hp)] at h
        rw [List.findIdx?_start_succ, List.findIdx?_map] at h
        have hple : l.length + 1 ≤ p := by omega
        have hcongr :
            ((fun e => decide (p < e)) ∘ (· + (l.length + 1))) =
              (fun e => decide (p - (l.length + 1) < e)) := by
          funext e
          simp only [Function.comp_apply]
          exact decide_eq_decide.mpr (by omega)
        rw [hcongr] at h
        cases hfi : (lineEnds (joinLines (l2 :: ls2))).findIdx?
            (fun e => decide (p - (l.length + 1) < e)) 0 with
        | none => rw [hfi] at h; exact Except.noConfusion h
        | some k' =>
          rw [hfi] at h
          simp only [Option.map_some', Except.ok.injEq] at h
          have hih := ih (fun l' hl' => hnl l' (List.mem_cons_of_mem l hl'))
            (p - (l.length + 1)) k' (by rw [resolveLineIdx, hfi])
          rcases hih with ⟨lk, hget, hlo, hhi⟩
          refine ⟨lk, ?_, ?_, ?_⟩
          · rw [← h]
            simpa using hget
          · rw [← h, lineStartOffset_cons_succ]
            omega
          · rw [← h, lineStartOffset_cons_succ]
            omega

set_option maxRecDepth 20000 in
/-- C9 counterexample: the BUY grammar matches the final cleaned line of
`c9Text`, but that line is unterminated, so no `LineIndex` entry exceeds the
match's start offset and the pipeline aborts with `StopIteration` instead of
resolving the match to a line number. -/
theorem c9_last_line_stopiteration_cex :
    matchPostLine "Buy ".toList "Buy ABC 5.0 something $600.00".toList =
      some ("ABC".toList, "5.0".toList, "600.00".toList) ∧
    getOperations c9Account c9Text = .error .stopIteration := ⟨rfl, rfl⟩

/-- C9 witness: resolving offset 0 over the two cleaned lines of the sample
statement yields line 0, whose range contains the offset. -/
theorem c9_witness :
    ∃ lk, c9Lines.get? 0 = some lk ∧
      lineStartOffset c9Lines 0 ≤ 0 ∧ 0 < lineStartOffset c9Lines 0 + lk.length + 1 :=
  c9_offset_resolution c9Lines (by decide) 0 0 (by decide)


/-! ## Claims C6/C7 — the Text Normalizer.  Infrastructure lemmas. -/

theorem dropWhile_idem {p : Char → Bool} :
    ∀ (xs : List Char), List.dropWhile p (List.dropWhile p xs) = List.dropWhile p xs := by
  intro xs
  induction xs with
  | nil => rfl
  | cons x xs ih =>
    by_cases hx : p x = true
    · rw [List.dropWhile_cons_of_pos hx, ih]
    · rw [List.dropWhile_cons_of_neg (by simpa using hx),
        List.dropWhile_cons_of_neg (by simpa using hx)]

theorem dropTrailingWs_idem (l : List Char) :
    dropTrailingWs (dropTrailingWs l) = dropTrailingWs l := by
  rw [dropTrailingWs, dropTrailingWs, List.reverse_reverse, dropWhile_idem]

theorem dropTrailingWs_decomp (l : List Char) :
    ∃ t, l = dropTrailingWs l ++ t ∧ t.all (fun c => c = ' ' || c = '\t') = true := by
  refine ⟨(l.reverse.takeWhile (fun c => c = ' ' || c = '\t')).reverse, ?_, ?_⟩
  · conv_lhs => rw [← l.reverse_reverse,
      ← List.takeWhile_append_dropWhile (fun c => c = ' ' || c = '\t') l.reverse]
    rw [List.reverse_append, dropTrailingWs]
  · rw [List.all_eq_true]
    intro c hc
    have hc' : c ∈ List.takeWhile (fun ch => ch = ' ' || ch = '\t') l.reverse :=
      List.mem_reverse.mp hc
    have hp := List.mem_takeWhile_imp hc'
    simpa using hp

theorem dropTrailingWs_length_le (l : List Char) :
    (dropTrailingWs l).length ≤ l.length := by
  rcases dropTrailingWs_decomp l with ⟨t, hl, _⟩
  conv_rhs => rw [hl]
  simp [List.length_append]

theorem mem_dropTrailingWs {c : Char} {l : List Char} (h : c ∈ dropTrailingWs l) :
    c ∈ l := by
  rcases dropTrailingWs_decomp l with ⟨t, hl, _⟩
  rw [hl]
  exact List.mem_append_left t h

/-! The five outcome lemmas for `processLine`.  Once a line is flagged, every
later stage maps `FLAG_DELETE_THIS_LINE` to itself and the final filter drops
it, so the remaining computation is closed and evaluates to `none`. -/

theorem processLine_long {l : List Char} (h70 : 70 ≤ l.length) :
    processLine l = none := by
  simp only [processLine, if_pos h70]
  decide

theorem processLine_banned {l : List Char} (h70 : ¬ 70 ≤ l.length)
    (hb : hasBannedWord l = true) : processLine l = none := by
  simp only [processLine, if_neg h70, hb, if_true]
  decide

theorem processLine_allws {l : List Char} (h70 : ¬ 70 ≤ l.length)
    (hb : hasBannedWord l = false)
    (hws : (dropTrailingWs l).all (fun c => c = ' ' || c = '\t') = true) :
    processLine l = none := by
  simp only [processLine, if_neg h70, hb, Bool.false_eq_true, if_false, hws, if_true]
  decide

theorem processLine_small {l : List Char} (h70 : ¬ 70 ≤ l.length)
    (hb : hasBannedWord l = false)
    (hws : (dropTrailingWs l).all (fun c => c = ' ' || c = '\t') = false)
    (hsm : (dropTrailingWs l).length ≤ 2) : processLine l = none := by
  simp only [processLine, if_neg h70, hb, Bool.false_eq_true, if_false, hws, if_pos hsm]
  decide

theorem processLine_kept {l : List Char} (h70 : ¬ 70 ≤ l.length)
    (hb : hasBannedWord l = false)
    (hws : (dropTrailingWs l).all (fun c => c = ' ' || c = '\t') = false)
    (hsm : ¬ (dropTrailingWs l).length ≤ 2)
    (hocc : hasOcc FLAGSTR (dropTrailingWs l) = false) :
    processLine l = some (dropTrailingWs l) := by
  simp only [processLine, if_neg h70, hb, Bool.false_eq_true, if_false, hws,
    if_neg hsm, hocc]

theorem processLine_hasflag {l : List Char} (h70 : ¬ 70 ≤ l.length)
    (hb : hasBannedWord l = false)
    (hws : (dropTrailingWs l).all (fun c => c = ' ' || c = '\t') = false)
    (hsm : ¬ (dropTrailingWs l).length ≤ 2)
    (hocc : hasOcc FLAGSTR (dropTrailingWs l) = true) : processLine l = none := by
  simp only [processLine, if_neg h70, hb, Bool.false_eq_true, if_false, hws,
    if_neg hsm, hocc, if_true]

theorem processLine_some_shape {l l' : List Char} (h : processLine l = some l') :
    l' = dropTrailingWs l ∧ ¬ 70 ≤ l.length ∧ hasBannedWord l = false ∧
      (dropTrailingWs l).all (fun c => c = ' ' || c = '\t') = false ∧
      ¬ (dropTrailingWs l).length ≤ 2 ∧
      hasOcc FLAGSTR (dropTrailingWs l) = false := by
  by_cases h70 : 70 ≤ l.length
  · rw [processLine_long h70] at h; cases h
  cases hb : hasBannedWord l with
  | true => rw [processLine_banned h70 hb] at h; cases h
  | false =>
    cases hws : (dropTrailingWs l).all (fun c => c = ' ' || c = '\t') with
    | true => rw [processLine_allws h70 hb hws] at h; cases h
    | false =>
      by_cases hsm : (dropTrailingWs l).length ≤ 2
      · rw [processLine_small h70 hb hws hsm] at h; cases h
      cases hocc : hasOcc FLAGSTR (dropTrailingWs l) with
      | true => rw [processLine_hasflag h70 hb hws hsm hocc] at h; cases h
      | false =>
        rw [processLine_kept h70 hb hws hsm hocc] at h
        cases h
        exact ⟨rfl, h70, rfl, rfl, hsm, rfl⟩


theorem isPrefixOf_append_right {w v u : List Char} (h : w.isPrefixOf v = true) :
    w.isPrefixOf (v ++ u) = true := by
  rw [List.isPrefixOf_iff_prefix] at h ⊢
  exact h.trans (List.prefix_append v u)

theorem isPrefixOf_of_short {w a b : List Char} (h : w.isPrefixOf (a ++ b) = true)
    (hlen : w.length ≤ a.length) : w.isPrefixOf a = true := by
  rw [List.isPrefixOf_iff_prefix] at h ⊢
  exact List.prefix_of_prefix_length_le h (List.prefix_append a b) hlen

theorem splitNlAll_no_nl {l : List Char} (h : '\n' ∉ l) : splitNlAll l = [l] := by
  induction l with
  | nil => rfl
  | cons c rest ih =>
    have hc : ¬ c = '\n' := by
      intro hc; subst hc; exact h (List.mem_cons_self _ _)
    rw [splitNlAll, if_neg hc, ih (fun hm => h (List.mem_cons_of_mem c hm))]

theorem splitNlAll_append_nl {l : List Char} (t : List Char) (h : '\n' ∉ l) :
    splitNlAll (l ++ '\n' :: t) = l :: splitNlAll t := by
  induction l with
  | nil => simp [splitNlAll]
  | cons c rest ih =>
    have hc : ¬ c = '\n' := by
      intro hc; subst hc; exact h (List.mem_cons_self _ _)
    rw [List.cons_append, splitNlAll, if_neg hc,
      ih (fun hm => h (List.mem_cons_of_mem c hm))]

theorem no_nl_mem_splitNlAll : ∀ {s l : List Char}, l ∈ splitNlAll s → '\n' ∉ l := by
  intro s
  induction s with
  | nil =>
    intro l hl
    rw [splitNlAll] at hl
    rcases List.mem_singleton.mp hl with rfl
    exact List.not_mem_nil _
  | cons c rest ih =>
    intro l hl
    rw [splitNlAll] at hl
    by_cases hc : c = '\n'
    · rw [if_pos hc] at hl
      rcases List.mem_cons.mp hl with rfl | hl'
      · exact List.not_mem_nil _
      · exact ih hl'
    · rw [if_neg hc] at hl
      cases hrec : splitNlAll rest with
      | nil =>
        rw [hrec] at hl
        rcases List.mem_singleton.mp hl with rfl
        intro hm
        rcases List.mem_singleton.mp hm with rfl
        exact hc rfl
      | cons l0 ls0 =>
        rw [hrec] at hl
        rcases List.mem_cons.mp hl with rfl | hl'
        · intro hm
          rcases List.mem_cons.mp hm with hm0 | hm1
          · exact hc hm0.symm
          · exact ih (by rw [hrec]; exact List.mem_cons_self _ _) hm1
        · exact ih (by rw [hrec]; exact List.mem_cons_of_mem _ hl')

theorem no_nl_mem_pySplitlines {s l : List Char} (h : l ∈ pySplitlines s) : '\n' ∉ l := by
  rw [pySplitlines] at h
  split_ifs at h
  · cases h
  · exact no_nl_mem_splitNlAll ((List.dropLast_sublist _).mem h)
  · exact no_nl_mem_splitNlAll h

theorem joinLines_ne_nil : ∀ {K : List (List Char)}, K ≠ [] → (∀ l ∈ K, l ≠ []) →
    joinLines K ≠ [] := by
  intro K hK hall
  match K with
  | [l] => exact hall l (List.mem_singleton.mpr rfl)
  | l :: l2 :: rest => simp [joinLines]

theorem getLast?_joinLines : ∀ {K : List (List Char)},
    (∀ l ∈ K, l ≠ [] ∧ '\n' ∉ l) → K ≠ [] →
    ∃ c, (joinLines K).getLast? = some c ∧ ¬ c = '\n' := by
  intro K
  induction K with
  | nil => intro _ hK; exact absurd rfl hK
  | cons l K' ih =>
    intro hall _
    cases K' with
    | nil =>
      rcases hall l (List.mem_cons_self _ _) with ⟨hne, hnl⟩
      refine ⟨(l.getLast hne), ?_, ?_⟩
      · rw [show joinLines [l] = l from rfl]
        exact List.getLast?_eq_getLast l hne
      · intro hc
        exact hnl (hc ▸ List.getLast_mem hne)
    | cons l2 K'' =>
      rcases ih (fun x hx => hall x (List.mem_cons_of_mem l hx)) (by simp) with
        ⟨c, hlast, hc⟩
      refine ⟨c, ?_, hc⟩
      rw [show joinLines (l :: l2 :: K'') = l ++ '\n' :: joinLines (l2 :: K'') from rfl]
      rw [show ('\n' :: joinLines (l2 :: K'')) = ['\n'] ++ joinLines (l2 :: K'') from rfl]
      rw [List.getLast?_append, List.getLast?_append, hlast]
      rfl

theorem pySplitlines_joinLines : ∀ {K : List (List Char)},
    (∀ l ∈ K, l ≠ [] ∧ '\n' ∉ l) → pySplitlines (joinLines K) = K := by
  intro K
  induction K with
  | nil => intro _; rfl
  | cons l K' ih =>
    intro hall
    rcases hall l (List.mem_cons_self _ _) with ⟨hne, hnl⟩
    cases K' with
    | nil =>
      rw [show joinLines [l] = l from rfl, pySplitlines]
      rw [if_neg (by simpa [List.isEmpty_iff] using hne)]
      rw [if_neg (by
        intro hlast
        have h2 := List.getLast?_eq_getLast l hne
        rw [hlast] at h2
        injection h2 with h3
        exact hnl (by rw [h3]; exact List.getLast_mem hne))]
      exact splitNlAll_no_nl hnl
    | cons l2 K'' =>
      have hall' : ∀ x ∈ l2 :: K'', x ≠ [] ∧ '\n' ∉ x :=
        fun x hx => hall x (List.mem_cons_of_mem l hx)
      have hJne : joinLines (l2 :: K'') ≠ [] :=
        joinLines_ne_nil (by simp) (fun x hx => (hall' x hx).1)
      rcases getLast?_joinLines hall' (by simp) with ⟨c, hlast, hcnl⟩
      have hjoin : joinLines (l :: l2 :: K'') = l ++ '\n' :: joinLines (l2 :: K'') := rfl
      rw [hjoin, pySplitlines]
      rw [if_neg (by simp [List.isEmpty_iff])]
      rw [if_neg (by
        rw [show ('\n' :: joinLines (l2 :: K'')) = ['\n'] ++ joinLines (l2 :: K'') from rfl,
          List.getLast?_append, List.getLast?_append, hlast]
        intro hcon
        simp only [Option.or_some, Option.some.injEq] at hcon
        exact hcnl hcon)]
      rw [splitNlAll_append_nl _ hnl]
      have ihj := ih hall'
      rw [pySplitlines] at ihj
      rw [if_neg (by simpa [List.isEmpty_iff] using hJne)] at ihj
      rw [if_neg (by
        rw [hlast]
        intro hcon
        simp only [Option.some.injEq] at hcon
        exact hcnl hcon)] at ihj
      rw [ihj]

theorem filterMap_processLine_id : ∀ {K : List (List Char)},
    (∀ l ∈ K, processLine l = some l) → K.filterMap processLine = K := by
  intro K
  induction K with
  | nil => intro _; rfl
  | cons l K' ih =>
    intro hall
    rw [List.filterMap_cons, hall l (List.mem_cons_self _ _),
      ih (fun x hx => hall x (List.mem_cons_of_mem l hx))]


theorem wsChar_not_word {c : Char} (hc : (c = ' ' || c = '\t') = true) :
    isWordChar c = false := by
  rcases Bool.or_eq_true _ _ |>.mp hc with h | h
  · rw [decide_eq_true_eq.mp h]; decide
  · rw [decide_eq_true_eq.mp h]; decide

theorem boundaryAfter_append_ws {l t : List Char}
    (ht : t.all (fun c => c = ' ' || c = '\t') = true)
    {j : Nat} (h : boundaryAfter l j = true) : boundaryAfter (l ++ t) j = true := by
  rw [boundaryAfter] at h ⊢
  rw [List.drop_append_eq_append_drop, List.head?_append]
  cases hh : (l.drop j).head? with
  | some c =>
    rw [hh] at h
    rw [Option.or_some]
    exact h
  | none =>
    rw [Option.none_or]
    cases hd : t.drop (j - l.length) with
    | nil => rfl
    | cons c rest =>
      have hc : c ∈ t :=
        List.mem_of_mem_drop (n := j - l.length) (by rw [hd]; exact List.mem_cons_self c rest)
      have hw := wsChar_not_word (List.all_eq_true.mp ht c hc)
      simp [hw]

theorem boundaryBefore_eq_after (l : List Char) (i : Nat) :
    boundaryBefore l i = (decide (i = 0) || boundaryAfter l (i - 1)) := rfl

theorem boundaryBefore_append_ws {l t : List Char}
    (ht : t.all (fun c => c = ' ' || c = '\t') = true)
    {i : Nat} (h : boundaryBefore l i = true) : boundaryBefore (l ++ t) i = true := by
  rw [boundaryBefore_eq_after] at h ⊢
  cases hd : decide (i = 0) with
  | true => rfl
  | false =>
    rw [hd, Bool.false_or] at h
    rw [Bool.false_or]
    exact boundaryAfter_append_ws ht h

theorem isPrefixOf_drop_append {w l t : List Char} {i : Nat}
    (h : w.isPrefixOf (l.drop i) = true) : w.isPrefixOf ((l ++ t).drop i) = true := by
  rw [List.drop_append_eq_append_drop]
  exact isPrefixOf_append_right h

theorem head?_isSome_drop_append {l t : List Char} {j : Nat}
    (h : (l.drop j).head?.isSome = true) : ((l ++ t).drop j).head?.isSome = true := by
  rw [List.drop_append_eq_append_drop, List.head?_append]
  cases hh : (l.drop j).head? with
  | some c => rw [Option.or_some]; rfl
  | none => rw [hh] at h; cases h

theorem bannedAt_append_ws {l t : List Char}
    (ht : t.all (fun c => c = ' ' || c = '\t') = true)
    {i : Nat} (h : bannedAt l i = true) : bannedAt (l ++ t) i = true := by
  rw [bannedAt] at h ⊢
  simp only [Bool.or_eq_true, Bool.and_eq_true] at h ⊢
  rcases h with ((⟨⟨hb, hp⟩, ha⟩ | ⟨⟨⟨⟨hb, hp⟩, hs⟩, hp2⟩, ha⟩) | ⟨⟨hb, hp⟩, ha⟩)
  · exact Or.inl (Or.inl ⟨⟨boundaryBefore_append_ws ht hb, isPrefixOf_drop_append hp⟩,
      boundaryAfter_append_ws ht ha⟩)
  · exact Or.inl (Or.inr ⟨⟨⟨⟨boundaryBefore_append_ws ht hb, isPrefixOf_drop_append hp⟩,
      head?_isSome_drop_append hs⟩, isPrefixOf_drop_append hp2⟩,
      boundaryAfter_append_ws ht ha⟩)
  · exact Or.inr ⟨⟨boundaryBefore_append_ws ht hb, isPrefixOf_drop_append hp⟩,
      boundaryAfter_append_ws ht ha⟩

theorem hasBannedWord_append_ws {l t : List Char}
    (ht : t.all (fun c => c = ' ' || c = '\t') = true)
    (h : hasBannedWord l = true) : hasBannedWord (l ++ t) = true := by
  rw [hasBannedWord, List.any_eq_true] at h ⊢
  rcases h with ⟨i, hi, hb⟩
  refine ⟨i, ?_, bannedAt_append_ws ht hb⟩
  rw [List.mem_range] at hi ⊢
  rw [List.length_append]
  omega

theorem hasBannedWord_dropTrailingWs {l : List Char} (h : hasBannedWord l = false) :
    hasBannedWord (dropTrailingWs l) = false := by
  cases hb : hasBannedWord (dropTrailingWs l) with
  | false => rfl
  | true =>
    exfalso
    rcases dropTrailingWs_decomp l with ⟨t, hl, ht⟩
    have htr := hasBannedWord_append_ws ht hb
    rw [← hl, h] at htr
    cases htr

theorem marker_prefix_hasBanned {l : List Char} {j : Nat}
    (h : MARKER.isPrefixOf (l.drop j) = true) : hasBannedWord l = true := by
  rcases List.isPrefixOf_iff_prefix.mp h with ⟨u, hu⟩
  have hjlen : j ≤ l.length := by
    by_contra hj
    have hnil : l.drop j = [] := List.drop_eq_nil_of_le (by omega)
    rw [hnil] at hu
    exact absurd hu.symm (by simp [MARKER])
  have hulen : l.length - j = 46 + u.length := by
    have hlen := congrArg List.length hu
    rw [List.length_append, List.length_drop] at hlen
    rw [← hlen]
    rfl
  have hdrop : ∀ k : Nat, k ≤ 46 → l.drop (j + k) = MARKER.drop k ++ u := by
    intro k hk
    have h1 : l.drop (j + k) = (l.drop j).drop k := (List.drop_drop k j l).symm
    rw [h1, ← hu, List.drop_append_eq_append_drop,
      show MARKER.length = 46 from rfl, Nat.sub_eq_zero_of_le hk, List.drop_zero]
  rw [hasBannedWord, List.any_eq_true]
  refine ⟨j + 5, ?_, ?_⟩
  · rw [List.mem_range]; omega
  · rw [bannedAt]
    have hbb : boundaryBefore l (j + 5) = true := by
      rw [boundaryBefore_eq_after]
      have h4 : l.drop (j + 5 - 1) = MARKER.drop 4 ++ u := by
        rw [show j + 5 - 1 = j + 4 from rfl]
        exact hdrop 4 (by omega)
      rw [boundaryAfter, h4]
      rw [show (MARKER.drop 4 : List Char) = ' ' :: MARKER.drop 5 from rfl]
      simp [isWordChar]
    have hpA : "ACTION".toList.isPrefixOf (l.drop (j + 5)) = true := by
      rw [hdrop 5 (by omega)]
      exact isPrefixOf_append_right (by decide)
    have hba : boundaryAfter l (j + 5 + 6) = true := by
      have h11 : l.drop (j + 5 + 6) = MARKER.drop 11 ++ u := by
        rw [show j + 5 + 6 = j + 11 from rfl]
        exact hdrop 11 (by omega)
      rw [boundaryAfter, h11]
      rw [show (MARKER.drop 11 : List Char) = ' ' :: MARKER.drop 12 from rfl]
      simp [isWordChar]
    simp only [hbb, hpA, hba, Bool.and_true, Bool.true_and, Bool.true_or]

theorem prefix_in_joinLines : ∀ {K : List (List Char)}, (∀ l ∈ K, '\n' ∉ l) →
    ∀ {w : List Char}, '\n' ∉ w → w ≠ [] → ∀ {i : Nat},
    w.isPrefixOf ((joinLines K).drop i) = true →
    ∃ l ∈ K, ∃ j, w.isPrefixOf (l.drop j) = true := by
  intro K
  induction K with
  | nil =>
    intro _ w _ hwne i h
    rw [show joinLines [] = ([] : List Char) from rfl, List.drop_nil] at h
    cases w with
    | nil => exact absurd rfl hwne
    | cons c cs => simp [List.isPrefixOf] at h
  | cons l K' ih =>
    intro hnl w hwnl hwne i h
    cases K' with
    | nil => exact ⟨l, List.mem_singleton.mpr rfl, i, h⟩
    | cons l2 K'' =>
      rw [show joinLines (l :: l2 :: K'') = l ++ '\n' :: joinLines (l2 :: K'') from rfl] at h
      rw [List.drop_append_eq_append_drop] at h
      by_cases hi : i ≤ l.length
      · by_cases hlen : w.length ≤ (l.drop i).length
        · exact ⟨l, List.mem_cons_self _ _, i, isPrefixOf_of_short h hlen⟩
        · exfalso
          have h0 : i - l.length = 0 := by omega
          rw [h0, List.drop_zero] at h
          have hw := List.prefix_iff_eq_take.mp (List.isPrefixOf_iff_prefix.mp h)
          rw [List.take_append_eq_append_take,
            List.take_of_length_le (by omega)] at hw
          cases hd : w.length - (l.drop i).length with
          | zero => omega
          | succ k =>
            rw [hd, List.take_succ_cons] at hw
            apply hwnl
            rw [hw]
            exact List.mem_append_right _ (List.mem_cons_self _ _)
      · have hldrop : l.drop i = [] := List.drop_eq_nil_of_le (by omega)
        rw [hldrop, List.nil_append] at h
        have hshift : ('\n' :: joinLines (l2 :: K'')).drop (i - l.length) =
            (joinLines (l2 :: K'')).drop (i - l.length - 1) := by
          cases hd : i - l.length with
          | zero => omega
          | succ k =>
            rw [List.drop_succ_cons]
            congr 1
        rw [hshift] at h
        rcases ih (fun x hx => hnl x (List.mem_cons_of_mem l hx)) hwnl hwne h with
          ⟨l', hl', j, hj⟩
        exact ⟨l', List.mem_cons_of_mem l hl', j, hj⟩

theorem marker_not_in_cleanupText (s : List Char) :
    hasOcc MARKER (cleanupText s) = false := by
  cases hocc : hasOcc MARKER (cleanupText s) with
  | false => rfl
  | true =>
    exfalso
    rw [hasOcc, List.any_eq_true] at hocc
    rcases hocc with ⟨i, _, hpre⟩
    rw [show cleanupText s = joinLines ((pySplitlines s).filterMap processLine) from rfl]
      at hpre
    have hKprops : ∀ l ∈ (pySplitlines s).filterMap processLine,
        '\n' ∉ l ∧ hasBannedWord l = false := by
      intro l hl
      rcases List.mem_filterMap.mp hl with ⟨l0, hl0, hpl⟩
      rcases processLine_some_shape hpl with ⟨hshape, _, hb, _, _, _⟩
      constructor
      · intro hnlmem
        exact no_nl_mem_pySplitlines hl0 (mem_dropTrailingWs (hshape ▸ hnlmem))
      · rw [hshape]
        exact hasBannedWord_dropTrailingWs hb
    rcases prefix_in_joinLines (fun l hl => (hKprops l hl).1) (by decide) (by decide) hpre
      with ⟨l, hlK, j, hpj⟩
    have hbt := marker_prefix_hasBanned hpj
    rw [(hKprops l hlK).2] at hbt
    cases hbt


theorem processLine_stable {l l' : List Char} (h : processLine l = some l') :
    processLine l' = some l' := by
  rcases processLine_some_shape h with ⟨he, h70, hb, hws, hsm, hocc⟩
  subst he
  have hdd := dropTrailingWs_idem l
  have h70' : ¬ 70 ≤ (dropTrailingWs l).length := by
    have := dropTrailingWs_length_le l
    omega
  have hk := processLine_kept (l := dropTrailingWs l) h70'
    (hasBannedWord_dropTrailingWs hb)
    (by rw [hdd]; exact hws)
    (by rw [hdd]; exact hsm)
    (by rw [hdd]; exact hocc)
  rw [hdd] at hk
  exact hk

theorem cleanup_kept_props (s : List Char) :
    ∀ l' ∈ (pySplitlines s).filterMap processLine,
      processLine l' = some l' ∧ l' ≠ [] ∧ '\n' ∉ l' := by
  intro l' hl'
  rcases List.mem_filterMap.mp hl' with ⟨l0, hl0, hpl⟩
  rcases processLine_some_shape hpl with ⟨he, _, _, _, hsm, _⟩
  refine ⟨processLine_stable hpl, ?_, ?_⟩
  · intro hnil
    rw [← he, hnil] at hsm
    exact hsm (by simp)
  · intro hnlmem
    exact no_nl_mem_pySplitlines hl0 (mem_dropTrailingWs (he ▸ hnlmem))

theorem hasOcc_false_find_none {pat s : List Char} (h : hasOcc pat s = false) :
    findFirstOcc pat s = none := by
  rw [findFirstOcc, List.find?_eq_none]
  intro i hi hp
  have hany : (List.range (s.length + 1)).any (fun i => pat.isPrefixOf (s.drop i)) = true :=
    List.any_eq_true.mpr ⟨i, hi, hp⟩
  rw [hasOcc] at h
  rw [h] at hany
  cases hany

theorem splitOnSub_no_occ {pat s : List Char} (h : findFirstOcc pat s = none) :
    splitOnSub pat s = [s] := by
  rw [splitOnSub]
  cases hl : s.length with
  | zero => rfl
  | succ n =>
    rw [splitOnSubF]
    intro i hd tl hcon hpat
    rw [h] at hcon
    exact Option.noConfusion hcon

/-- C6 (amended): the line clean-up stage is idempotent, but the full
normalizer (body isolation plus line clean-up) is not: `_clean_statement`
removes every occurrence of the transaction-begin marker, so its output never
contains the marker, and a second application therefore splits nothing, keeps
`parts[1:] = []`, and always returns the empty text. -/
theorem c6_normalizer_not_idempotent :
    ∀ s : List Char, cleanupText (cleanupText s) = cleanupText s ∧
      cleanStatement (cleanStatement s) = [] := by
  intro s
  constructor
  · have hK := cleanup_kept_props s
    calc cleanupText (cleanupText s)
        = joinLines ((pySplitlines
            (joinLines ((pySplitlines s).filterMap processLine))).filterMap processLine) := rfl
      _ = joinLines (((pySplitlines s).filterMap processLine).filterMap processLine) := by
          rw [pySplitlines_joinLines (fun l hl => ⟨(hK l hl).2.1, (hK l hl).2.2⟩)]
      _ = joinLines ((pySplitlines s).filterMap processLine) := by
          rw [filterMap_processLine_id (fun l hl => (hK l hl).1)]
      _ = cleanupText s := rfl
  · have hno : hasOcc MARKER (cleanStatement s) = false :=
      marker_not_in_cleanupText (joinLines ((splitOnSub MARKER s).drop 1))
    show cleanupText (joinLines ((splitOnSub MARKER (cleanStatement s)).drop 1)) = []
    rw [splitOnSub_no_occ (hasOcc_false_find_none hno)]
    rfl

/-- C6 counterexample: a marker line followed by one body line.  The first
normalizer application keeps the body line; the second application, run on
that output, finds no marker and returns the empty text — the normalizer is
not idempotent. -/
theorem c6_not_idempotent_cex :
    cleanStatement c6Text = "Hello World abc".toList ∧
    cleanStatement (cleanStatement c6Text) = [] ∧
    "Hello World abc".toList ≠ ([] : List Char) := ⟨rfl, rfl, by decide⟩

/-- C7 (amended): the normalizer retains what follows the first occurrence of
the transaction-begin marker; but when the marker is absent, the whole
document is *discarded*, not kept: `regex.split` returns a single part,
`parts[1:]` is empty, and the cleaned body is the empty text. -/
theorem c7_marker_absent_empty_body :
    ∀ s : List Char, hasOcc MARKER s = false → cleanStatement s = [] := by
  intro s h
  show cleanupText (joinLines ((splitOnSub MARKER s).drop 1)) = []
  rw [splitOnSub_no_occ (hasOcc_false_find_none h)]
  rfl

/-- C7 counterexample: a document without the marker yields an *empty* body,
even though the whole-document-as-body reading (the line clean-up applied to
the document itself) would keep its content. -/
theorem c7_marker_absent_cex :
    hasOcc MARKER c7Text = false ∧ cleanStatement c7Text = [] ∧
    cleanupText c7Text = c7Text ∧ c7Text ≠ [] := ⟨by decide, rfl, rfl, by decide⟩

/-- C7 witness: the amended theorem applied to a concrete marker-free text. -/
theorem c7_witness : cleanStatement "another plain line".toList = [] :=
  c7_marker_absent_empty_body "another plain line".toList (by decide)

end Guideline
